import Mathlib

/-!
Verification of the fan-out/merge/columnarize read path of
`src/query/functions/storage/pb/reader.go`.

The Go source is shallowly embedded: pure helper functions become Lean
functions, the stateful stream / merge / table cursors become explicit
state-passing functions on structures.  Machine integers (`int64`) are
modelled as `Int`; `float64` point payloads are carried opaquely as `Int`
(the reader only copies them, it never computes with them); `[]byte`
values are modelled as `String`.  A Go `nil` slice/interface is modelled
with `Option`/dedicated constructors.  A Go index-out-of-range panic is
modelled by an `Option`-valued result (`none` = panic), noted at each
definition concerned.

Types owned by external collaborator packages (flux `GroupKey` ordering,
the storage protobuf aggregate-name table) are not part of this
repository's sources; their definitions are modelled from the spec and
marked as such.
-/

namespace StoragePB

/-- flux column data types as used by the reader (`flux.DataType`). -/
inductive DataType
  | TBool | TInt | TUInt | TFloat | TString | TTime | TInvalid
deriving DecidableEq, Repr, Inhabited

/-- storage wire data types (`ostorage.ReadResponse_DataType`). -/
inductive StorageDataType
  | DataTypeFloat | DataTypeInteger | DataTypeUnsigned | DataTypeBoolean | DataTypeString
deriving DecidableEq, Repr, Inhabited

/-- `convertDataType` of reader.go: maps the wire data type to the flux type. -/
def convertDataType : StorageDataType → DataType
  | .DataTypeFloat => .TFloat
  | .DataTypeInteger => .TInt
  | .DataTypeUnsigned => .TUInt
  | .DataTypeBoolean => .TBool
  | .DataTypeString => .TString

/-- `flux.ColMeta`: a column label together with its data type.
`Type` is a reserved word in Lean, so the field is called `typ`. -/
structure ColMeta where
  label : String
  typ : DataType
deriving DecidableEq, Repr, Inhabited

/-- `ostorage.Tag`: one key/value pair of a series ([]byte fields modelled as String). -/
structure Tag where
  key : String
  value : String
deriving DecidableEq, Repr, Inhabited

/-- The value slot of a group key column: flux `values.Value` restricted to the
two kinds the reader ever stores (`values.NewTimeValue`, `values.NewStringValue`). -/
inductive KeyValue
  | timeVal (t : Int)
  | stringVal (s : String)
deriving DecidableEq, Repr, Inhabited

/-- Modelled from the spec: flux `GroupKey` (package `flux`/`execute` is an
external collaborator, not in this repository).  Per the spec, a GroupKey is an
ordered list of (column label, column value) pairs; `execute.NewGroupKey` takes
the column metadata and the value list. -/
structure GroupKey where
  cols : List ColMeta
  vals : List KeyValue
deriving DecidableEq, Repr, Inhabited

/-- Lexicographic order over the character lists of two strings (the order Go
uses for string comparison, stated structurally). -/
def charListLess : List Char → List Char → Bool
  | [], [] => false
  | [], _ :: _ => true
  | _ :: _, [] => false
  | a :: as, b :: bs => decide (a < b) || (decide (a = b) && charListLess as bs)

/-- Go string `<`. -/
def strLess (a b : String) : Bool := charListLess a.data b.data

/-- Go string `<=` (the order is total, so `a <= b` is `not (b < a)`). -/
def strLE (a b : String) : Bool := !strLess b a

/-- Modelled from the spec: strict order on individual key values.  Times and
strings compare by their own linear orders; the cross-kind case (never hit when
all keys of one read share a column layout) is fixed arbitrarily: times sort
before strings. -/
def keyValLess : KeyValue → KeyValue → Bool
  | .timeVal a, .timeVal b => decide (a < b)
  | .timeVal _, .stringVal _ => true
  | .stringVal _, .timeVal _ => false
  | .stringVal a, .stringVal b => strLess a b

/-- Modelled from the spec: "ordering is lexicographic over the value list". -/
def valsLess : List KeyValue → List KeyValue → Bool
  | [], [] => false
  | [], _ :: _ => true
  | _ :: _, [] => false
  | a :: as, b :: bs => keyValLess a b || (decide (a = b) && valsLess as bs)

/-- Modelled from the spec: flux `GroupKey.Less`, lexicographic over the value list. -/
def keyLess (a b : GroupKey) : Bool := valsLess a.vals b.vals

/-- Modelled from the spec: flux `GroupKey.Equal`, "two keys are equal iff all
label/value pairs match". -/
def keyEqual (a b : GroupKey) : Bool := decide (a = b)

/-- flux `storage.GroupMode` (the caller-facing grouping mode enum). -/
inductive GroupMode
  | modeDefault | modeNone | modeBy | modeExcept | modeAll
deriving DecidableEq, Repr, Inhabited

/-- `ostorage.ReadRequest_Group` wire enum. -/
inductive RequestGroup
  | groupNone | groupBy | groupExcept | groupAll
deriving DecidableEq, Repr, Inhabited

/-- `convertGroupMode` of reader.go. -/
def convertGroupMode : GroupMode → RequestGroup
  | .modeNone => .groupNone
  | .modeBy => .groupBy
  | .modeExcept => .groupExcept
  | .modeDefault => .groupAll
  | .modeAll => .groupAll

/-- flux `storage.ReadSpec`, restricted to the fields the reader consumes.
The opaque predicate is omitted (it is passed through to an external
translator and never inspected by the code under verification). -/
structure ReadSpec where
  bucketID : String
  descending : Bool
  groupMode : GroupMode
  groupKeys : List String
  aggregateMethod : String
  seriesLimit : Int
  pointsLimit : Int
  seriesOffset : Int
  hosts : List String
deriving DecidableEq, Repr, Inhabited

/-- `execute.Bounds`: the read window (times as int64 nanoseconds). -/
structure Bounds where
  start : Int
  stop : Int
deriving DecidableEq, Repr, Inhabited

/-- One frame of a storage read response (`ostorage.ReadResponse_Frame`), as a
closed sum.  Float point values are carried opaquely (the reader only copies
them), so they are represented by `Int` surrogates. -/
inductive Frame
  | series (tags : List Tag) (dataType : StorageDataType)
  | group (tagKeys : List String) (partitionKeyVals : List String)
  | boolPoints (timestamps : List Int) (values : List Bool)
  | intPoints (timestamps : List Int) (values : List Int)
  | uintPoints (timestamps : List Int) (values : List Nat)
  | floatPoints (timestamps : List Int) (values : List Int)
  | stringPoints (timestamps : List Int) (values : List String)
deriving DecidableEq, Repr, Inhabited

/-- `frameType` enum of reader.go. -/
inductive FrameType
  | seriesType | groupType | boolPointsType | intPointsType | uintPointsType
  | floatPointsType | stringPointsType
deriving DecidableEq, Repr, Inhabited

/-- `readFrameType` of reader.go (total here because `Frame` is a closed sum). -/
def readFrameType : Frame → FrameType
  | .series _ _ => .seriesType
  | .group _ _ => .groupType
  | .boolPoints _ _ => .boolPointsType
  | .intPoints _ _ => .intPointsType
  | .uintPoints _ _ => .uintPointsType
  | .floatPoints _ _ => .floatPointsType
  | .stringPoints _ _ => .stringPointsType

/-- The loop of Go `sort.Search`: binary search for the least index in `[i, j)`
satisfying `f`, assuming `f` is monotone (the Go contract).  The width `j - i`
shrinks by at least one per iteration, so a fuel of the initial width makes the
recursion structural without changing the result. -/
def sortSearchLoop (f : Nat → Bool) : Nat → Nat → Nat → Nat
  | 0, i, _ => i
  | fuel + 1, i, j =>
    if i < j then
      let h := (i + j) / 2
      if !f h then sortSearchLoop f fuel (h + 1) j else sortSearchLoop f fuel i h
    else
      i

/-- `indexOfTag` of reader.go: `sort.Search(len(t), func(i) { t[i].Key >= k })`.
Out-of-range probes cannot occur inside the loop; the element read uses the
list with a zero-value default exactly like Go's backing array access. -/
def indexOfTag (t : List Tag) (k : String) : Nat :=
  sortSearchLoop (fun i => strLE k (t.getD i default).key) t.length 0 t.length

/-- flux column label constants (`execute.DefaultStartColLabel` etc.). -/
def startColLabel : String := "_start"

def stopColLabel : String := "_stop"

def timeColLabel : String := "_time"

def valueColLabel : String := "_value"

/-- The two leading bound columns shared by every group key the reader builds. -/
def baseKeyCols : List ColMeta :=
  [{ label := startColLabel, typ := .TTime }, { label := stopColLabel, typ := .TTime }]

def baseKeyVals (bnds : Bounds) : List KeyValue :=
  [.timeVal bnds.start, .timeVal bnds.stop]

/-- The `GroupModeBy` loop of `groupKeyForSeries`: for each requested group key
`k`, if `indexOfTag` lands strictly inside the tag list the tag AT THAT INDEX is
appended (the source checks only `i < len(s.Tags)`, not that `s.Tags[i].Key == k`). -/
def groupByCols (tags : List Tag) : List String → List ColMeta × List KeyValue
  | [] => ([], [])
  | k :: ks =>
    let (cs, vs) := groupByCols tags ks
    let i := indexOfTag tags k
    if i < tags.length then
      ({ label := (tags.getD i default).key, typ := .TString } :: cs,
        .stringVal (tags.getD i default).value :: vs)
    else
      (cs, vs)

/-- The `GroupModeExcept` loop of `groupKeyForSeries`.  When `indexOfTag`
returns `len(s.Tags)` the source immediately reads `s.Tags[i]` — an
index-out-of-range panic, modelled as `none`.  When the index is in range the
body is skipped, so a non-panicking run contributes no columns at all. -/
def groupExceptCols (tags : List Tag) : List String → Option (List ColMeta × List KeyValue)
  | [] => some ([], [])
  | k :: ks =>
    let i := indexOfTag tags k
    if i = tags.length then
      none
    else
      groupExceptCols tags ks

/-- The `GroupModeDefault`/`GroupModeAll` loop of `groupKeyForSeries`: every tag
becomes a key column. -/
def groupAllCols (tags : List Tag) : List ColMeta × List KeyValue :=
  (tags.map (fun tg => { label := tg.key, typ := .TString }),
    tags.map (fun tg => .stringVal tg.value))

/-- `groupKeyForSeries` of reader.go.  `none` models the Go panic of the
`GroupModeExcept` branch (see `groupExceptCols`).  `GroupModeNone` matches no
case of the Go switch, so only the bound columns are produced. -/
def groupKeyForSeries (tags : List Tag) (readSpec : ReadSpec) (bnds : Bounds) :
    Option GroupKey :=
  match readSpec.groupMode with
  | .modeBy =>
    let (cs, vs) := groupByCols tags readSpec.groupKeys
    some { cols := baseKeyCols ++ cs, vals := baseKeyVals bnds ++ vs }
  | .modeExcept =>
    match groupExceptCols tags readSpec.groupKeys with
    | some (cs, vs) => some { cols := baseKeyCols ++ cs, vals := baseKeyVals bnds ++ vs }
    | none => none
  | .modeDefault | .modeAll =>
    let (cs, vs) := groupAllCols tags
    some { cols := baseKeyCols ++ cs, vals := baseKeyVals bnds ++ vs }
  | .modeNone =>
    some { cols := baseKeyCols, vals := baseKeyVals bnds }

/-- `groupKeyForGroup` of reader.go: one string column per requested group key,
with the value read from `g.PartitionKeyVals[i]` — an out-of-range panic
(modelled as `none`) when the group frame carries fewer key values. -/
def groupKeyForGroup (partitionKeyVals : List String) (readSpec : ReadSpec)
    (bnds : Bounds) : Option GroupKey :=
  if readSpec.groupKeys.length ≤ partitionKeyVals.length then
    some
      { cols := baseKeyCols ++
          readSpec.groupKeys.map (fun k => { label := k, typ := .TString }),
        vals := baseKeyVals bnds ++
          (readSpec.groupKeys.zip partitionKeyVals).map (fun p => .stringVal p.2) }
  else
    none

/-! ### Order facts for the modelled GroupKey ordering -/

abbrev chainLE (ks : List GroupKey) : Prop :=
  List.Chain' (fun x y => keyLess y x = false) ks

instance chainLEDec : (ks : List GroupKey) → Decidable (chainLE ks)
  | [] => isTrue List.chain'_nil
  | [_] => isTrue (List.chain'_singleton _)
  | a :: b :: t =>
    match chainLEDec (b :: t) with
    | isTrue ht =>
      match hb : keyLess b a with
      | false => isTrue (List.chain'_cons.mpr ⟨hb, ht⟩)
      | true => isFalse (fun h => by
          have hc := (List.chain'_cons.mp h).1
          rw [hb] at hc
          exact Bool.noConfusion hc)
    | isFalse ht => isFalse (fun h => ht (List.chain'_cons.mp h).2)

def startColIdx : Nat := 0

def stopColIdx : Nat := 1

def timeColIdx : Nat := 2

def valueColIdx : Nat := 3

def startColMeta : ColMeta := { label := startColLabel, typ := .TTime }

def stopColMeta : ColMeta := { label := stopColLabel, typ := .TTime }

def timeColMeta : ColMeta := { label := timeColLabel, typ := .TTime }

def valueColMeta (typ : DataType) : ColMeta := { label := valueColLabel, typ := typ }

/-- The loop body shared by `determineTableColsForSeries` and
`determineTableColsForGroup`: tag `j` (counted from the enumeration) writes
column slot `4+j` and marks its default as the non-nil empty value. -/
def tagColStep {β : Type} (f : β → ColMeta)
    (acc : List ColMeta × List (Option String)) (jt : Nat × β) :
    List ColMeta × List (Option String) :=
  (acc.1.set (4 + jt.1) (f jt.2), acc.2.set (4 + jt.1) (some ""))

/-- `determineTableColsForSeries` of reader.go: allocate `4+len(tags)` zeroed
column slots and default slots, write the four fixed leading columns, then fill
one string column (with a non-nil empty default) per tag, in tag order. -/
def determineTableColsForSeries (tags : List Tag) (typ : DataType) :
    List ColMeta × List (Option String) :=
  let n := 4 + tags.length
  let cols0 :=
    ((((List.replicate n (default : ColMeta)).set startColIdx startColMeta).set
      stopColIdx stopColMeta).set timeColIdx timeColMeta).set valueColIdx (valueColMeta typ)
  let defs0 := List.replicate n (none : Option String)
  tags.enum.foldl (tagColStep (fun tg => { label := tg.key, typ := .TString }))
    (cols0, defs0)

/-- `determineTableColsForGroup` of reader.go: same shape, but the string
columns come from the group frame's tag keys. -/
def determineTableColsForGroup (tagKeys : List String) (typ : DataType) :
    List ColMeta × List (Option String) :=
  let n := 4 + tagKeys.length
  let cols0 :=
    ((((List.replicate n (default : ColMeta)).set startColIdx startColMeta).set
      stopColIdx stopColMeta).set timeColIdx timeColMeta).set valueColIdx (valueColMeta typ)
  let defs0 := List.replicate n (none : Option String)
  tagKeys.enum.foldl (tagColStep (fun k => { label := k, typ := .TString }))
    (cols0, defs0)

/-! ### Request construction and dispatch -/

/-- Modelled from the spec: the storage protobuf's generated name-to-enumerant
map `ostorage.Aggregate_AggregateType_value` (the protobuf package is an
external collaborator; the spec only requires a fixed finite table containing
the empty aggregate's enumerant under "NONE"). -/
def aggregateTypeValue : List (String × Int) :=
  [("NONE", 0), ("SUM", 1), ("COUNT", 2)]

/-- `ostorage.AggregateTypeNone`. -/
def aggregateTypeNone : Int := 0

/-- `strings.ToUpper` (ASCII-relevant part), stated structurally over the
character list. -/
def strToUpper (s : String) : String := { data := s.data.map Char.toUpper }

/-- `determineAggregateMethod` of reader.go: empty string means no aggregate,
otherwise the upper-cased name is looked up in the wire enum table and an
unknown name is a fatal error. -/
def determineAggregateMethod (agg : String) : Except String Int :=
  if agg = "" then .ok aggregateTypeNone
  else
    match aggregateTypeValue.lookup (strToUpper agg) with
    | some t => .ok t
    | none => .error ("unknown aggregate type " ++ agg)

/-- `ostorage.ReadRequest`, restricted to the fields reader.go sets.  The
`Hints.SetNoPoints` bit is the `hintNoPoints` flag. -/
structure ReadRequest where
  readSource : String
  retentionPolicy : String
  descending : Bool
  rangeStart : Int
  rangeEnd : Int
  group : RequestGroup
  groupKeys : List String
  seriesLimit : Int
  pointsLimit : Int
  seriesOffset : Int
  hintNoPoints : Bool
  aggregate : Option Int
deriving DecidableEq, Repr, Inhabited

/-- `strings.IndexByte` over the character list: the first index carrying the
character, `-1` (here `none`) otherwise. -/
def charIndexOf : List Char → Char → Option Nat
  | [], _ => none
  | c :: cs, x => if c = x then some 0 else (charIndexOf cs x).map (· + 1)

/-- The bucket split of `tableIterator.Do`: at the first `/` (when there is
one) the database name ends and the retention policy begins. -/
def splitBucket (db : String) : String × String :=
  match charIndexOf db.data '/' with
  | none => (db, "")
  | some i => ({ data := db.data.take i }, { data := db.data.drop (i + 1) })

/-- Lines 96-128 of reader.go (`tableIterator.Do` up to the aggregate check):
build the wire request; a points limit of `-1` sets the no-points hint; an
unknown aggregate aborts with an error before anything else happens. -/
def buildReadRequest (readSpec : ReadSpec) (bounds : Bounds) :
    Except String ReadRequest :=
  let sp := splitBucket readSpec.bucketID
  let req : ReadRequest :=
    { readSource := sp.1
      retentionPolicy := sp.2
      descending := readSpec.descending
      rangeStart := bounds.start
      rangeEnd := bounds.stop
      group := convertGroupMode readSpec.groupMode
      groupKeys := readSpec.groupKeys
      seriesLimit := readSpec.seriesLimit
      pointsLimit := readSpec.pointsLimit
      seriesOffset := readSpec.seriesOffset
      hintNoPoints := decide (readSpec.pointsLimit = -1)
      aggregate := none }
  match determineAggregateMethod readSpec.aggregateMethod with
  | .error e => .error e
  | .ok agg =>
    .ok (if agg ≠ aggregateTypeNone then { req with aggregate := some agg } else req)

/-! ### Per-connection stream cursor (`streamState`) -/

/-- `streamState` of reader.go.  `buffer` is `s.rep.Frames` (the frames of the
last received batch not yet consumed); `pending` holds the batches the storage
node will still deliver, after which `RecvMsg` reports `io.EOF`.  The zero
`currentKey` models the Go nil key, which is never read before the first
key-bearing frame is seen. -/
structure StreamState where
  bounds : Bounds
  buffer : List Frame
  pending : List (List Frame)
  currentKey : GroupKey
  readSpec : ReadSpec
  finished : Bool
  group : Bool
deriving DecidableEq, Repr, Inhabited

/-- The key a frame announces, as `streamState.computeKey` computes it: group
frames (re)key a grouped stream, series frames an ungrouped one; all other
frames leave the cached key untouched (`none`). -/
def frameKey (readSpec : ReadSpec) (bnds : Bounds) (grp : Bool) : Frame → Option GroupKey
  | .series tags _ => if grp then none else groupKeyForSeries tags readSpec bnds
  | .group _ partitionKeyVals =>
    if grp then groupKeyForGroup partitionKeyVals readSpec bnds else none
  | _ => none

/-- `streamState.computeKey` of reader.go: recompute the cached key from the
head frame.  An unreachable empty buffer (Go would panic on `Frames[0]`) and an
out-of-range key computation (`frameKey` = `none` on a key frame models the Go
panic inside `groupKeyFor…`) leave the state unchanged; the theorems'
hypotheses keep both cases off the executed paths. -/
def StreamState.computeKey (s : StreamState) : StreamState :=
  match s.buffer.head? with
  | none => s
  | some f =>
    match frameKey s.readSpec s.bounds s.group f with
    | some k => { s with currentKey := k }
    | none => s

/-- `streamState.peek` of reader.go (call sites guarantee a non-empty buffer;
the default is the Go panic stand-in). -/
def StreamState.peek (s : StreamState) : Frame := s.buffer.headD default

/-- `streamState.more` of reader.go: false if finished; true if buffered frames
remain; otherwise perform exactly one receive.  End-of-stream (exhausted
`pending`) sets `finished`; a successfully received batch with zero frames
returns false WITHOUT setting `finished` (the source only sets it on a receive
error). -/
def StreamState.more (s : StreamState) : Bool × StreamState :=
  if s.finished then (false, s)
  else if s.buffer ≠ [] then (true, s)
  else
    match s.pending with
    | [] => (false, { s with finished := true })
    | batch :: rest =>
      let s1 := { s with buffer := batch, pending := rest }
      if batch = [] then (false, s1)
      else (true, s1.computeKey)

/-- `streamState.key` of reader.go. -/
def StreamState.key (s : StreamState) : GroupKey := s.currentKey

/-- `streamState.next` of reader.go: pop the head frame and recompute the
cached key when frames remain.  The empty-buffer case is the Go panic
stand-in. -/
def StreamState.next (s : StreamState) : Frame × StreamState :=
  match s.buffer with
  | [] => (default, s)
  | f :: rest =>
    let s1 := { s with buffer := rest }
    (f, if rest ≠ [] then s1.computeKey else s1)

/-- A storage connection of the model: its host and the batches its canned
read response will stream back. -/
structure Connection where
  host : String
  frames : List (List Frame)
deriving DecidableEq, Repr, Inhabited

/-- The host allow-list filter of `tableIterator.Do` (lines 132-144). -/
def hostSelected (readSpec : ReadSpec) (host : String) : Bool :=
  readSpec.hosts.isEmpty || readSpec.hosts.contains host

/-- Lines 96-159 of `tableIterator.Do`: build the request and open one stream
per selected connection.  Constructing a `StreamState` is the model of issuing
the RPC, so an `error` result means no network call was made. -/
def tableIteratorSetup (readSpec : ReadSpec) (bounds : Bounds)
    (conns : List Connection) : Except String (ReadRequest × List StreamState) :=
  match buildReadRequest readSpec bounds with
  | .error e => .error e
  | .ok req =>
    let isGrouping := req.group ≠ .groupAll
    .ok (req,
      (conns.filter (fun c => hostSelected readSpec c.host)).map (fun c =>
        { bounds := bounds, buffer := [], pending := c.frames,
          currentKey := default, readSpec := readSpec,
          finished := false, group := isGrouping }))

/-! ### K-way merge cursor (`mergedStreams`) -/

/-- `mergedStreams` of reader.go.  The Go nil `currentKey` is `none`; `i` is a
Go `int` (it is set to `-1` when every stream is exhausted). -/
structure MergedStreams where
  streams : List StreamState
  currentKey : Option GroupKey
  i : Int
deriving DecidableEq, Repr, Inhabited

def MergedStreams.streamAt (ms : MergedStreams) (n : Nat) : StreamState :=
  ms.streams.getD n default

def MergedStreams.setStreamAt (ms : MergedStreams) (n : Nat) (s : StreamState) :
    MergedStreams :=
  { ms with streams := ms.streams.set n s }

/-- `mergedStreams.key` of reader.go: a single stream delegates, otherwise the
cached merge key (Go may return its nil key; the default stands in for nil and
is never exposed under the theorems' hypotheses). -/
def MergedStreams.key (ms : MergedStreams) : GroupKey :=
  if ms.streams.length = 1 then (ms.streamAt 0).key
  else ms.currentKey.getD default

/-- `mergedStreams.peek` of reader.go. -/
def MergedStreams.peek (ms : MergedStreams) : Frame :=
  (ms.streamAt ms.i.toNat).peek

/-- `mergedStreams.next` of reader.go. -/
def MergedStreams.next (ms : MergedStreams) : Frame × MergedStreams :=
  let r := (ms.streamAt ms.i.toNat).next
  (r.1, ms.setStreamAt ms.i.toNat r.2)

/-- The scan loop of `mergedStreams.determineNewKey`: call `more()` on every
stream, track the first stream holding the smallest key (`minIdx == -1 ||
k.Less(minKey)` — ties keep the earlier stream). -/
def determineNewKeyScan : List StreamState → Int → Int → Option GroupKey →
    List StreamState × Int × Option GroupKey
  | [], _, minIdx, minKey => ([], minIdx, minKey)
  | s :: rest, idx, minIdx, minKey =>
    let r := s.more
    if r.1 then
      let k := r.2.key
      let takeIt : Bool :=
        decide (minIdx = -1) ||
          (match minKey with
            | some m => keyLess k m
            | none => false)
      if takeIt then
        let rec1 := determineNewKeyScan rest (idx + 1) idx (some k)
        (r.2 :: rec1.1, rec1.2)
      else
        let rec1 := determineNewKeyScan rest (idx + 1) minIdx minKey
        (r.2 :: rec1.1, rec1.2)
    else
      let rec1 := determineNewKeyScan rest (idx + 1) minIdx minKey
      (r.2 :: rec1.1, rec1.2)

/-- `mergedStreams.determineNewKey` of reader.go. -/
def MergedStreams.determineNewKey (ms : MergedStreams) : Bool × MergedStreams :=
  let r := determineNewKeyScan ms.streams 0 (-1) none
  (decide (0 ≤ r.2.1), { streams := r.1, currentKey := r.2.2, i := r.2.1 })

/-- The mutually recursive `mergedStreams.more` / `mergedStreams.advance` pair
of reader.go, expressed with a fuel index (`phase = false` is `more`, `phase =
true` is `advance`).  `MergedStreams.more` supplies fuel that is provably
sufficient, so the fuel-exhaustion branch is never reached on the states the
theorems speak about. -/
def mergedLoopF : Nat → Bool → MergedStreams → Bool × MergedStreams
  | 0, _, ms => (false, ms)
  | fuel + 1, false, ms =>
    if ms.streams.length = 1 then
      let r := (ms.streamAt 0).more
      (r.1, ms.setStreamAt 0 r.2)
    else if ms.i < 0 then (false, ms)
    else
      match ms.currentKey with
      | none => ms.determineNewKey
      | some ck =>
        let r := (ms.streamAt ms.i.toNat).more
        let ms1 := ms.setStreamAt ms.i.toNat r.2
        if r.1 then
          if keyEqual r.2.key ck then (true, ms1)
          else mergedLoopF fuel true ms1
        else mergedLoopF fuel true ms1
  | fuel + 1, true, ms =>
    let ms1 := { ms with i := ms.i + 1 }
    if ms1.i = (ms.streams.length : Int) then
      let r := ms1.determineNewKey
      if r.1 then mergedLoopF fuel false r.2
      else (false, r.2)
    else mergedLoopF fuel false ms1

/-- `mergedStreams.more` of reader.go, with sufficient fuel for the inner
more/advance recursion. -/
def MergedStreams.more (ms : MergedStreams) : Bool × MergedStreams :=
  mergedLoopF (2 * ms.streams.length + 4) false ms

/-- Drive the merge cursor the way its consumers do: while `more()` holds,
record `key()` and consume with `next()`. -/
def drainF : Nat → MergedStreams → List (GroupKey × Frame) × MergedStreams
  | 0, ms => ([], ms)
  | n + 1, ms =>
    let r := ms.more
    if r.1 then
      let k := r.2.key
      let r2 := r.2.next
      let rec1 := drainF n r2.2
      ((k, r2.1) :: rec1.1, rec1.2)
    else ([], r.2)

/-- Drive one stream cursor directly through its own more/key/next operations
(the right-hand side of the single-connection equivalence claim). -/
def streamDrainF : Nat → StreamState → List (GroupKey × Frame) × StreamState
  | 0, s => ([], s)
  | n + 1, s =>
    let r := s.more
    if r.1 then
      let k := r.2.key
      let r2 := r.2.next
      let rec1 := streamDrainF n r2.2
      ((k, r2.1) :: rec1.1, rec1.2)
    else ([], r.2)

/-- Annotate a frame sequence with the group key each frame belongs to: a
key-bearing frame carries its own key, other frames inherit the running key
(`base` for any leading non-key frames). -/
def withKeys (readSpec : ReadSpec) (bnds : Bounds) (grp : Bool) :
    GroupKey → List Frame → List (GroupKey × Frame)
  | _, [] => []
  | base, f :: fs =>
    match frameKey readSpec bnds grp f with
    | some k => (k, f) :: withKeys readSpec bnds grp k fs
    | none => (base, f) :: withKeys readSpec bnds grp base fs

/-- The annotated frames a stream cursor has not yet handed out. -/
def remOf (s : StreamState) : List (GroupKey × Frame) :=
  withKeys s.readSpec s.bounds s.group s.currentKey (s.buffer ++ s.pending.flatten)

/-- The group keys of the frames a stream cursor has not yet handed out. -/
def remKeys (s : StreamState) : List GroupKey := (remOf s).map Prod.fst

/-- All group keys still unconsumed anywhere in the merge. -/
def allRemKeys (ms : MergedStreams) : List GroupKey :=
  ((ms.streams.map remOf).flatten).map Prod.fst

/-- Total number of frames not yet handed out by the merge. -/
def totalRem (ms : MergedStreams) : Nat :=
  ((ms.streams.map remOf).map List.length).sum

/-- A fresh stream cursor over the canned batches of one connection, as
`tableIterator.Do` builds it. -/
def initStream (readSpec : ReadSpec) (bnds : Bounds) (grp : Bool)
    (batches : List (List Frame)) : StreamState :=
  { bounds := bnds, buffer := [], pending := batches, currentKey := default,
    readSpec := readSpec, finished := false, group := grp }

/-- A fresh merge cursor over the given connections' canned batches (Go zero
values: nil key, index 0). -/
def initMerged (readSpec : ReadSpec) (bnds : Bounds) (grp : Bool)
    (contents : List (List (List Frame))) : MergedStreams :=
  { streams := contents.map (initStream readSpec bnds grp),
    currentKey := none, i := 0 }

/-- `out` is an interleaving of the element lists of `ls`: each step removes
the head of one list, and in the end every list is exhausted.  This captures
at once "emits the union of all frames" and "preserves the relative order of
frames of each connection". -/
inductive KMerge {α : Type} : List (List α) → List α → Prop
  | nil {ls : List (List α)} : (∀ l ∈ ls, l = []) → KMerge ls []
  | step {ls : List (List α)} {j : Nat} {x : α} {rest : List α} {out : List α} :
      ls.get? j = some (x :: rest) → KMerge (ls.set j rest) out →
      KMerge ls (x :: out)

/-! ### Stream-cursor invariant and step lemmas -/

/-- Invariant maintained by every `streamState` operation (for streams whose
transport never delivers an empty mid-stream batch):
`batches`: batches still to be received are non-empty;
`fin`: a finished stream has handed out everything;
`headKey`: the cached key agrees with the key announced by the head frame;
`chain`: the keys of the remaining frames never step down. -/
structure StreamInv (s : StreamState) : Prop where
  batches : ∀ b ∈ s.pending, b ≠ []
  fin : s.finished = true → s.buffer = [] ∧ s.pending = []
  headKey : ∀ f, s.buffer.head? = some f →
    ∀ k, frameKey s.readSpec s.bounds s.group f = some k → k = s.currentKey
  chain : chainLE (remKeys s)

structure MergedInv (ms : MergedStreams) : Prop where
  streams : ∀ s ∈ ms.streams, StreamInv s
  sing : ms.streams.length = 1 → ms.i = 0
  ckey : ∀ ck, ms.currentKey = some ck →
    0 ≤ ms.i ∧ ms.i < (ms.streams.length : Int) ∧
    ∀ k ∈ allRemKeys ms, keyLess k ck = false
  inone : ms.currentKey = none → 0 ≤ ms.i ∨ ∀ s ∈ ms.streams, remOf s = []
  ineg : ms.i < 0 → ∀ s ∈ ms.streams, remOf s = []

/-- State of the merge cursor right after `more()` returned true: a valid
stream is selected, its buffered head frame carries the merge key, and no
unconsumed frame anywhere has a smaller key. -/
structure SelOK (ms : MergedStreams) : Prop where
  inv : MergedInv ms
  ipos : 0 ≤ ms.i
  ilt : ms.i < (ms.streams.length : Int)
  buf : (ms.streamAt ms.i.toNat).buffer ≠ []
  keyeq : (ms.streamAt ms.i.toNat).key = ms.key
  low : ∀ k ∈ allRemKeys ms, keyLess k ms.key = false

abbrev MoreSpec (ms : MergedStreams) (r : Bool × MergedStreams) : Prop :=
  r.2.streams.map remOf = ms.streams.map remOf ∧
  r.2.streams.length = ms.streams.length ∧
  (r.1 = true → SelOK r.2) ∧
  (r.1 = false → MergedInv r.2 ∧ ∀ s ∈ r.2.streams, remOf s = [])

def cexSpec : ReadSpec :=
  { bucketID := "b", descending := false, groupMode := .modeDefault, groupKeys := [],
    aggregateMethod := "", seriesLimit := 0, pointsLimit := 0, seriesOffset := 0,
    hosts := [] }

def cexBounds : Bounds := { start := 0, stop := 10 }

def cexSeriesA : Frame := .series [{ key := "t", value := "a" }] .DataTypeFloat

def cexSeriesB : Frame := .series [{ key := "t", value := "b" }] .DataTypeFloat

/-- Two connections; the first's transport delivers an empty batch before its
(t=a)-keyed series frame, the second immediately delivers its (t=b) frame. -/
def cexContents : List (List (List Frame)) := [[[], [cexSeriesA]], [[cexSeriesB]]]

/-- The same two connections with no empty batches. -/
def cexContentsOk : List (List (List Frame)) := [[[cexSeriesA]], [[cexSeriesB]]]

structure GoSlice (α : Type) where
  data : List α
  cap : Nat
deriving DecidableEq, Repr

instance {α : Type} : Inhabited (GoSlice α) := ⟨⟨[], 0⟩⟩

/-- `s[0:0]`: drop the visible elements, keep the backing array. -/
def GoSlice.reset {α : Type} (s : GoSlice α) : GoSlice α := { data := [], cap := s.cap }

/-- The buffer-fill step of one `Points` case of `table.advance`: the incoming
length is compared against the capacity `checkCap` (in the source this is the
capacity of the buffer being filled — except in the swapped `intPointsType`
and `uintPointsType` cases, which read the other integer buffer's capacity),
allocating a fresh backing array when it exceeds it and re-slicing the old one
otherwise; either way all elements are then overwritten.  Re-slicing past the
filled buffer's own capacity is a Go slice-bounds panic (`none`). -/
def fillBuf {α : Type} (checkCap : Nat) (buf : GoSlice α) (vals : List α) :
    Option (GoSlice α) :=
  if vals.length > checkCap then some { data := vals, cap := vals.length }
  else if vals.length ≤ buf.cap then some { data := vals, cap := buf.cap }
  else none

/-- One cell of `table.colBufs` (`[]interface{}` in the source): `none` is the
nil interface, otherwise a typed slice. -/
inductive ColData
  | times (b : GoSlice Int)
  | bools (b : GoSlice Bool)
  | ints (b : GoSlice Int)
  | uints (b : GoSlice Nat)
  | floats (b : GoSlice Int)
  | strs (b : GoSlice String)
deriving DecidableEq, Repr

instance : Inhabited ColData := ⟨.times default⟩

/-- `table` of reader.go (the `done` channel carries no data and is omitted;
`wait`/`Do` synchronisation is sequenced explicitly in `handleReadF`). -/
structure Table where
  bounds : Bounds
  key : GroupKey
  cols : List ColMeta
  empty : Bool
  more : Bool
  tags : List (Option String)
  defs : List (Option String)
  readSpec : ReadSpec
  ms : MergedStreams
  l : Nat
  colBufs : List (Option ColData)
  timeBuf : GoSlice Int
  boolBuf : GoSlice Bool
  intBuf : GoSlice Int
  uintBuf : GoSlice Nat
  floatBuf : GoSlice Int
  stringBuf : GoSlice String
  err : Option String
deriving DecidableEq, Repr, Inhabited

/-- Modelled from the spec: `execute.ColIdx` (external `execute` package)
returns the index of the first column carrying the label, and `-1` — here
`none` — when there is none. -/
def colIdx (label : String) (cols : List ColMeta) : Option Nat :=
  cols.findIdx? (fun c => decide (c.label = label))

/-- The per-tag loop of `table.readTags`: write each tag's value at the column
indexed by its key.  A key with no matching column makes `execute.ColIdx`
return `-1` and the write `t.tags[-1]` panics (`none`). -/
def readTagsLoop (cols : List ColMeta) : List (Option String) → List Tag →
    Option (List (Option String))
  | tg, [] => some tg
  | tg, tag :: rest =>
    match colIdx tag.key cols with
    | some j => readTagsLoop cols (tg.set j (some tag.value)) rest
    | none => none

/-- `table.readTags` of reader.go: reset every tag cell to its default, then
place the provided tags.  The defaults copy indexes `t.defs[j]` for every slot
of `t.tags`, a panic (`none`) if `defs` is shorter (never the case for tables
built by `newTable`). -/
def Table.readTags (t : Table) (tags : List Tag) : Option Table :=
  if t.tags.length ≤ t.defs.length then
    match readTagsLoop t.cols (t.defs.take t.tags.length) tags with
    | some tg => some { t with tags := tg }
    | none => none
  else none

/-- One column of `table.appendTags`: a nil cell is allocated fresh, a string
cell is grown or re-sliced, any other cell fails Go's `.([]string)` type
assertion (`none`, modelling the panic); all `l` cells are then set to the tag
value. -/
def appendTagCol (lv : Nat) (v : String) : Option ColData → Option (GoSlice String)
  | none => some { data := List.replicate lv v, cap := lv }
  | some (.strs b) =>
    if b.cap < lv then some { data := List.replicate lv v, cap := lv }
    else some { data := List.replicate lv v, cap := b.cap }
  | some _ => none

/-- The column loop of `table.appendTags`, walking the tag cells and the
column buffers in step (both always have one entry per column). -/
def appendTagsLoop (lv : Nat) : List (Option String) → List (Option ColData) →
    Option (List (Option ColData))
  | [], [] => some []
  | none :: tgs, b :: bufs =>
    match appendTagsLoop lv tgs bufs with
    | some nb => some (b :: nb)
    | none => none
  | some v :: tgs, b :: bufs =>
    match appendTagCol lv v b with
    | some nb =>
      match appendTagsLoop lv tgs bufs with
      | some rest => some (some (.strs nb) :: rest)
      | none => none
    | none => none
  | _, _ => none

/-- `table.appendTags` of reader.go: every column with a non-nil cached tag
value gets a string column buffer holding that value `l` times.  The length
guard is the Go index panic for tables whose slices disagree with `cols`
(never the case for tables built by `newTable`). -/
def Table.appendTags (t : Table) : Option Table :=
  if t.tags.length = t.cols.length ∧ t.colBufs.length = t.cols.length then
    match appendTagsLoop t.l t.tags t.colBufs with
    | some cb => some { t with colBufs := cb }
    | none => none
  else none

/-- One column of `table.appendBounds` (same allocate/re-slice/fill shape as
`appendTagCol`, over `execute.Time` cells). -/
def appendBoundCol (lv : Nat) (v : Int) : Option ColData → Option (GoSlice Int)
  | none => some { data := List.replicate lv v, cap := lv }
  | some (.times b) =>
    if b.cap < lv then some { data := List.replicate lv v, cap := lv }
    else some { data := List.replicate lv v, cap := b.cap }
  | some _ => none

/-- `table.appendBounds` of reader.go: fill the `_start` and `_stop` column
buffers with the table bounds. -/
def Table.appendBounds (t : Table) : Option Table :=
  if 2 ≤ t.colBufs.length then
    match appendBoundCol t.l t.bounds.start (t.colBufs.getD startColIdx none) with
    | none => none
    | some b0 =>
      let cb1 := t.colBufs.set startColIdx (some (.times b0))
      match appendBoundCol t.l t.bounds.stop (cb1.getD stopColIdx none) with
      | none => none
      | some b1 => some { t with colBufs := cb1.set stopColIdx (some (.times b1)) }
  else none

/-- The error text of the type-conflict branches of `table.advance`. -/
def dataTypeName : DataType → String
  | .TBool => "bool"
  | .TInt => "int"
  | .TUInt => "uint"
  | .TFloat => "float"
  | .TString => "string"
  | .TTime => "time"
  | .TInvalid => "invalid"

def typeChangedErr (fromT toT : DataType) : String :=
  "value type changed from " ++ dataTypeName fromT ++ " -> " ++ dataTypeName toT

/-- The `boolPointsType` case of `table.advance` (see `advanceF`): guard the value
type, consume the frame, fill the time buffer and the `boolBuf` — growing it
when the incoming length exceeds `cap(t.boolBuf)`, the capacity the source
reads — then append the tag and bound columns. -/
def boolPointsStep (t1 : Table) (ts : List Int) (vs : List Bool) :
    Option (Bool × Table) :=
  if valueColIdx < t1.cols.length then
    if (t1.cols.getD valueColIdx default).typ ≠ DataType.TBool then
      some (false, { t1 with
        err := some (typeChangedErr (t1.cols.getD valueColIdx default).typ .TBool) })
    else if ts.length ≤ vs.length then
      let t2 := { t1 with empty := false, ms := (t1.ms.next).2, l := ts.length }
      match fillBuf t2.timeBuf.cap t2.timeBuf ts with
      | none => none
      | some tb =>
        match fillBuf t2.boolBuf.cap t2.boolBuf (vs.take ts.length) with
        | none => none
        | some vb =>
          let t3 := { t2 with
            timeBuf := tb
            boolBuf := vb
            colBufs := (t2.colBufs.set timeColIdx (some (.times tb))).set
              valueColIdx (some (.bools vb)) }
          match t3.appendTags with
          | none => none
          | some t4 =>
            match t4.appendBounds with
            | none => none
            | some t5 => some (true, t5)
    else none
  else none

/-- The `intPointsType` case of `table.advance` (see `advanceF`): guard the value
type, consume the frame, fill the time buffer and the `intBuf` — growing it
when the incoming length exceeds `cap(t.uintBuf)`, the capacity the source
reads — then append the tag and bound columns. -/
def intPointsStep (t1 : Table) (ts : List Int) (vs : List Int) :
    Option (Bool × Table) :=
  if valueColIdx < t1.cols.length then
    if (t1.cols.getD valueColIdx default).typ ≠ DataType.TInt then
      some (false, { t1 with
        err := some (typeChangedErr (t1.cols.getD valueColIdx default).typ .TInt) })
    else if ts.length ≤ vs.length then
      let t2 := { t1 with empty := false, ms := (t1.ms.next).2, l := ts.length }
      match fillBuf t2.timeBuf.cap t2.timeBuf ts with
      | none => none
      | some tb =>
        match fillBuf t2.uintBuf.cap t2.intBuf (vs.take ts.length) with
        | none => none
        | some vb =>
          let t3 := { t2 with
            timeBuf := tb
            intBuf := vb
            colBufs := (t2.colBufs.set timeColIdx (some (.times tb))).set
              valueColIdx (some (.ints vb)) }
          match t3.appendTags with
          | none => none
          | some t4 =>
            match t4.appendBounds with
            | none => none
            | some t5 => some (true, t5)
    else none
  else none

/-- The `uintPointsType` case of `table.advance` (see `advanceF`): guard the value
type, consume the frame, fill the time buffer and the `uintBuf` — growing it
when the incoming length exceeds `cap(t.intBuf)`, the capacity the source
reads — then append the tag and bound columns. -/
def uintPointsStep (t1 : Table) (ts : List Int) (vs : List Nat) :
    Option (Bool × Table) :=
  if valueColIdx < t1.cols.length then
    if (t1.cols.getD valueColIdx default).typ ≠ DataType.TUInt then
      some (false, { t1 with
        err := some (typeChangedErr (t1.cols.getD valueColIdx default).typ .TUInt) })
    else if ts.length ≤ vs.length then
      let t2 := { t1 with empty := false, ms := (t1.ms.next).2, l := ts.length }
      match fillBuf t2.timeBuf.cap t2.timeBuf ts with
      | none => none
      | some tb =>
        match fillBuf t2.intBuf.cap t2.uintBuf (vs.take ts.length) with
        | none => none
        | some vb =>
          let t3 := { t2 with
            timeBuf := tb
            uintBuf := vb
            colBufs := (t2.colBufs.set timeColIdx (some (.times tb))).set
              valueColIdx (some (.uints vb)) }
          match t3.appendTags with
          | none => none
          | some t4 =>
            match t4.appendBounds with
            | none => none
            | some t5 => some (true, t5)
    else none
  else none

/-- The `floatPointsType` case of `table.advance` (see `advanceF`): guard the value
type, consume the frame, fill the time buffer and the `floatBuf` — growing it
when the incoming length exceeds `cap(t.floatBuf)`, the capacity the source
reads — then append the tag and bound columns. -/
def floatPointsStep (t1 : Table) (ts : List Int) (vs : List Int) :
    Option (Bool × Table) :=
  if valueColIdx < t1.cols.length then
    if (t1.cols.getD valueColIdx default).typ ≠ DataType.TFloat then
      some (false, { t1 with
        err := some (typeChangedErr (t1.cols.getD valueColIdx default).typ .TFloat) })
    else if ts.length ≤ vs.length then
      let t2 := { t1 with empty := false, ms := (t1.ms.next).2, l := ts.length }
      match fillBuf t2.timeBuf.cap t2.timeBuf ts with
      | none => none
      | some tb =>
        match fillBuf t2.floatBuf.cap t2.floatBuf (vs.take ts.length) with
        | none => none
        | some vb =>
          let t3 := { t2 with
            timeBuf := tb
            floatBuf := vb
            colBufs := (t2.colBufs.set timeColIdx (some (.times tb))).set
              valueColIdx (some (.floats vb)) }
          match t3.appendTags with
          | none => none
          | some t4 =>
            match t4.appendBounds with
            | none => none
            | some t5 => some (true, t5)
    else none
  else none

/-- The `stringPointsType` case of `table.advance` (see `advanceF`): guard the value
type, consume the frame, fill the time buffer and the `stringBuf` — growing it
when the incoming length exceeds `cap(t.stringBuf)`, the capacity the source
reads — then append the tag and bound columns. -/
def stringPointsStep (t1 : Table) (ts : List Int) (vs : List String) :
    Option (Bool × Table) :=
  if valueColIdx < t1.cols.length then
    if (t1.cols.getD valueColIdx default).typ ≠ DataType.TString then
      some (false, { t1 with
        err := some (typeChangedErr (t1.cols.getD valueColIdx default).typ .TString) })
    else if ts.length ≤ vs.length then
      let t2 := { t1 with empty := false, ms := (t1.ms.next).2, l := ts.length }
      match fillBuf t2.timeBuf.cap t2.timeBuf ts with
      | none => none
      | some tb =>
        match fillBuf t2.stringBuf.cap t2.stringBuf (vs.take ts.length) with
        | none => none
        | some vb =>
          let t3 := { t2 with
            timeBuf := tb
            stringBuf := vb
            colBufs := (t2.colBufs.set timeColIdx (some (.times tb))).set
              valueColIdx (some (.strs vb)) }
          match t3.appendTags with
          | none => none
          | some t4 =>
            match t4.appendBounds with
            | none => none
            | some t5 => some (true, t5)
    else none
  else none

/-- `table.advance` of reader.go, fuelled (`none` is a Go panic or exhausted
fuel; callers pass one more than the merged streams' remaining frame count,
which bounds the loop's iterations).  Each round: `ms.more()`, reset all six
scratch buffers, then switch on the peeked frame.  A group frame ends the
table; a series frame of another key ends the table; a series frame of the
same key re-reads the tags, is consumed, and — under `PointsLimit == -1` —
yields an empty page, otherwise the loop continues; a points frame of the
wrong value type records the error and ends the table; a matching points
frame is consumed and columnarised.  The `intPointsType` and `uintPointsType`
cases pass the OTHER integer buffer's capacity to `fillBuf`, exactly as the
source reads `cap(t.uintBuf)` to grow `t.intBuf` and vice versa.  Writes
through `List.set` at the fixed column indexes mirror the source's
`t.colBufs[j] = …` (in-range for every table `newTable` builds, since
`colBufs` always has `cols.length ≥ 4` entries). -/
def advanceF : Nat → Table → Option (Bool × Table)
  | 0, _ => none
  | fuel + 1, t =>
    let r := t.ms.more
    if r.1 = false then some (false, { t with ms := r.2 })
    else
      let t1 := { t with
        ms := r.2
        timeBuf := t.timeBuf.reset
        boolBuf := t.boolBuf.reset
        intBuf := t.intBuf.reset
        uintBuf := t.uintBuf.reset
        stringBuf := t.stringBuf.reset
        floatBuf := t.floatBuf.reset }
      match t1.ms.peek with
      | .group _ _ => some (false, t1)
      | .series tags _ =>
        if keyEqual (t1.ms.key) t1.key = false then some (false, t1)
        else
          match t1.readTags tags with
          | none => none
          | some t2 =>
            let t3 := { t2 with ms := (t2.ms.next).2 }
            if t3.readSpec.pointsLimit = -1 then some (true, { t3 with l := 0 })
            else advanceF fuel t3
      | .boolPoints ts vs => boolPointsStep t1 ts vs
      | .intPoints ts vs => intPointsStep t1 ts vs
      | .uintPoints ts vs => uintPointsStep t1 ts vs
      | .floatPoints ts vs => floatPointsStep t1 ts vs
      | .stringPoints ts vs => stringPointsStep t1 ts vs

/-- `newTable` of reader.go: build the zeroed table, read the announcing
frame's tags, and run the initial `advance` to learn `more`. -/
def newTable (bounds : Bounds) (key : GroupKey) (cols : List ColMeta)
    (ms : MergedStreams) (readSpec : ReadSpec) (tags : List Tag)
    (defs : List (Option String)) : Option Table :=
  let b : Table :=
    { bounds := bounds, key := key, cols := cols,
      empty := true, more := false,
      tags := List.replicate cols.length none, defs := defs,
      readSpec := readSpec, ms := ms, l := 0,
      colBufs := List.replicate cols.length none,
      timeBuf := ⟨[], 0⟩, boolBuf := ⟨[], 0⟩, intBuf := ⟨[], 0⟩,
      uintBuf := ⟨[], 0⟩, floatBuf := ⟨[], 0⟩, stringBuf := ⟨[], 0⟩,
      err := none }
  match b.readTags tags with
  | none => none
  | some b1 =>
    match advanceF (totalRem b1.ms + 2) b1 with
    | none => none
    | some (m, b2) => some { b2 with more := m }

/-- The `for t.advance()` loop of `table.Do`: the page lengths handed to the
per-page callback after the first page, and the table the loop ends with. -/
def tableLoopF : Nat → Table → Option (List Nat × Table)
  | 0, _ => none
  | fuel + 1, t =>
    match advanceF (totalRem t.ms + 2) t with
    | none => none
    | some (false, t1) => some ([], t1)
    | some (true, t1) =>
      match tableLoopF fuel t1 with
      | none => none
      | some (ps, t2) => some (t1.l :: ps, t2)

/-- `table.Do` of reader.go, for a consumer that reads every page: the list of
page lengths the callback observes and the final table (whose `err` the
source returns).  A table whose initial `advance` said no never invokes the
callback. -/
def tableDoPages (t : Table) : Option (List Nat × Table) :=
  if t.more = false then some ([], t)
  else
    match tableLoopF (totalRem t.ms + 2) t with
    | none => none
    | some (ps, t1) => some (t.l :: ps, t1)

/-- One table emission of `tableIterator.handleRead`, as the visitor sees it. -/
structure Visited where
  key : GroupKey
  cols : List ColMeta
  pages : List Nat
  tableErr : Option String
deriving DecidableEq, Repr, Inhabited

/-- `tableIterator.handleRead` of reader.go, for a visitor that immediately
reads each table to completion (`f(table)` then `table.wait()`): a non-series
frame at a table boundary aborts with the short-read error, otherwise each
series announcement is consumed and becomes one emitted table. -/
def handleReadF : Nat → ReadSpec → Bounds → MergedStreams →
    Option (Except String (List Visited))
  | 0, _, _, _ => none
  | fuel + 1, readSpec, bnds, ms =>
    let r := ms.more
    if r.1 = false then some (.ok [])
    else
      match r.2.peek with
      | .series tags dt =>
        match groupKeyForSeries tags readSpec bnds with
        | none => none
        | some key =>
          let cd := determineTableColsForSeries tags (convertDataType dt)
          match newTable bnds key cd.1 ((r.2.next).2) readSpec tags cd.2 with
          | none => none
          | some tb =>
            match tableDoPages tb with
            | none => none
            | some (ps, tb2) =>
              match handleReadF fuel readSpec bnds tb2.ms with
              | none => none
              | some (.error e) => some (.error e)
              | some (.ok vs) =>
                let v : Visited :=
                  { key := key, cols := cd.1, pages := ps, tableErr := tb2.err }
                some (.ok (v :: vs))
      | _ => some (.error "internal error: short read")

/-! ### Field preservation across the table operations -/

structure SameFrame (t1 t2 : Table) : Prop where
  cols : t2.cols = t1.cols
  key : t2.key = t1.key
  defs : t2.defs = t1.defs
  bounds : t2.bounds = t1.bounds
  readSpec : t2.readSpec = t1.readSpec

def cexIntFrameA : Frame := .intPoints [1, 2, 3, 4, 5] [10, 20, 30, 40, 50]

def cexIntFrameB : Frame := .intPoints [9] [9]

def cexUintFrameA : Frame := .uintPoints [1, 2, 3, 4, 5] [10, 20, 30, 40, 50]

def cexUintFrameB : Frame := .uintPoints [9] [9]

/-- A freshly constructed table positioned over one single-connection stream
holding `frames` in one batch (the state `newTable` builds before its initial
`advance`). -/
def cexTable (cols : List ColMeta) (sp : ReadSpec) (frames : List Frame) : Table :=
  { bounds := cexBounds, key := default, cols := cols,
    empty := true, more := false,
    tags := List.replicate cols.length none, defs := List.replicate cols.length none,
    readSpec := sp, ms := initMerged sp cexBounds false [[frames]],
    l := 0, colBufs := List.replicate cols.length none,
    timeBuf := ⟨[], 0⟩, boolBuf := ⟨[], 0⟩, intBuf := ⟨[], 0⟩, uintBuf := ⟨[], 0⟩,
    floatBuf := ⟨[], 0⟩, stringBuf := ⟨[], 0⟩, err := none }

def cexIntCols : List ColMeta :=
  [startColMeta, stopColMeta, timeColMeta, valueColMeta .TInt]

def cexUintCols : List ColMeta :=
  [startColMeta, stopColMeta, timeColMeta, valueColMeta .TUInt]

def cexFloatCols : List ColMeta :=
  [startColMeta, stopColMeta, timeColMeta, valueColMeta .TFloat]

def cexIntTable : Table := cexTable cexIntCols cexSpec [cexIntFrameA, cexIntFrameB]

def cexUintTable : Table := cexTable cexUintCols cexSpec [cexUintFrameA, cexUintFrameB]

def cexFloatTable : Table := cexTable cexFloatCols cexSpec [cexIntFrameB]

/-- A stream cursor whose next receive will deliver a batch with zero frames,
with one more non-empty batch behind it. -/
def cexStream : StreamState :=
  { bounds := cexBounds, buffer := [], pending := [[], [cexSeriesA]],
    currentKey := default, readSpec := cexSpec, finished := false, group := false }

/-! ### Claims C3 to C6 -/

/-- C3: a table built from an announcing frame carrying N tag dimensions and
value type T gets exactly 4+N columns in the fixed order [_start, _stop,
_time, _value, tag1…tagN] — time-typed bounds and time columns, a T-typed
value column, string-typed tag columns — in both the series and the group
flavour, and `advance` never changes the column list, so every page of one
table sees the same schema. -/
def cexWrongByKey : GroupKey :=
  { cols := baseKeyCols ++ [{ label := "b", typ := .TString }],
    vals := baseKeyVals cexBounds ++ [.stringVal "v"] }

/-- C10: in By mode a `GroupKeys` entry that is not a tag key of the series can
still contribute a column — `indexOfTag` returns the insertion index and the
source only checks `i < len(s.Tags)`, not that the tag at `i` carries the
requested key.  For a series tagged `b=v` and `GroupKeys = [a]` (with `a`
absent and `a < b`), the key gets the column `b` with value `v` instead of no
column. -/
abbrev allSeriesRem (ms : MergedStreams) : Prop :=
  ∀ s ∈ ms.streams, ∀ p ∈ remOf s, readFrameType p.2 = FrameType.seriesType

def cexSpecNoPoints : ReadSpec := { cexSpec with pointsLimit := -1 }

/-- The group key of the `t=a` series under the no-points specification. -/
def cexNoPointsKey : GroupKey :=
  (groupKeyForSeries [{ key := "t", value := "a" }] cexSpecNoPoints cexBounds).getD
    default

/-- A table for the `t=a` key whose stream still holds two same-key series
re-announcements (the shape `newTable` sees right after `handleRead` consumed
the first announcement, when the storage node re-announces the series). -/
def cexNoPointsTable : Table :=
  { cexTable (determineTableColsForSeries [{ key := "t", value := "a" }] .TFloat).1
      cexSpecNoPoints [cexSeriesA, cexSeriesA] with
    key := cexNoPointsKey
    more := true }

def cexNoPointsRun : List Nat × Table := (tableDoPages cexNoPointsTable).getD default

def cexNoPointsReq : ReadRequest :=
  (buildReadRequest cexSpecNoPoints cexBounds).toOption.getD default

/-- C7, counterexample to the claim as stated: under `PointsLimit = -1` a
same-key series re-announcement makes `advance` return true with a zero-length
page, so the table's per-page callback IS invoked (`handleReadF` records pages
`[0]` for the announced key) — "zero pages" does not hold. -/
theorem charListLess_irrefl (l : List Char) : charListLess l l = false := by
  induction l with
  | nil => rfl
  | cons a as ih => simp [charListLess, ih]

theorem charListLess_trans {x y z : List Char} (h1 : charListLess x y = true)
    (h2 : charListLess y z = true) : charListLess x z = true := by
  induction x generalizing y z with
  | nil =>
    cases y with
    | nil => simp [charListLess] at h1
    | cons b bs =>
      cases z with
      | nil => simp [charListLess] at h2
      | cons c cs => simp [charListLess]
  | cons a as ih =>
    cases y with
    | nil => simp [charListLess] at h1
    | cons b bs =>
      cases z with
      | nil => simp [charListLess] at h2
      | cons c cs =>
        simp only [charListLess, Bool.or_eq_true, Bool.and_eq_true,
          decide_eq_true_eq] at h1 h2 ⊢
        rcases h1 with h1 | ⟨rfl, h1⟩
        · rcases h2 with h2 | ⟨rfl, _⟩
          · exact Or.inl (lt_trans h1 h2)
          · exact Or.inl h1
        · rcases h2 with h2 | ⟨rfl, h2⟩
          · exact Or.inl h2
          · exact Or.inr ⟨rfl, ih h1 h2⟩

theorem charListLess_conn {x y : List Char} (h1 : charListLess x y = false)
    (h2 : charListLess y x = false) : x = y := by
  induction x generalizing y with
  | nil =>
    cases y with
    | nil => rfl
    | cons b bs => simp [charListLess] at h1
  | cons a as ih =>
    cases y with
    | nil => simp [charListLess] at h2
    | cons b bs =>
      simp only [charListLess, Bool.or_eq_false_iff, Bool.and_eq_false_iff,
        decide_eq_false_iff_not, not_lt] at h1 h2
      obtain ⟨hab, h1'⟩ := h1
      obtain ⟨hba, h2'⟩ := h2
      have hab' : a = b := le_antisymm hba hab
      subst hab'
      rcases h1' with h | h1' <;> rcases h2' with h' | h2'
      · exact absurd rfl h
      · exact absurd rfl h
      · exact absurd rfl h'
      · exact congrArg (a :: ·) (ih h1' h2')

theorem strLess_trans {a b c : String} (h1 : strLess a b = true)
    (h2 : strLess b c = true) : strLess a c = true :=
  charListLess_trans h1 h2

theorem strLess_conn {a b : String} (h1 : strLess a b = false)
    (h2 : strLess b a = false) : a = b := by
  cases a with
  | mk xs =>
    cases b with
    | mk ys =>
      exact congrArg String.mk (charListLess_conn h1 h2)

theorem keyValLess_irrefl (a : KeyValue) : keyValLess a a = false := by
  cases a with
  | timeVal t => simp [keyValLess]
  | stringVal s => simp [keyValLess, strLess, charListLess_irrefl]

theorem keyValLess_trans {a b c : KeyValue} (h1 : keyValLess a b = true)
    (h2 : keyValLess b c = true) : keyValLess a c = true := by
  cases a <;> cases b <;> cases c <;> simp_all [keyValLess]
  · omega
  · exact strLess_trans h1 h2

theorem keyValLess_conn {a b : KeyValue} (h1 : keyValLess a b = false)
    (h2 : keyValLess b a = false) : a = b := by
  cases a with
  | timeVal x =>
    cases b with
    | timeVal y =>
      simp only [keyValLess, decide_eq_false_iff_not, not_lt] at h1 h2
      exact congrArg KeyValue.timeVal (le_antisymm h2 h1)
    | stringVal y => simp [keyValLess] at h1
  | stringVal x =>
    cases b with
    | timeVal y => simp [keyValLess] at h2
    | stringVal y =>
      simp only [keyValLess] at h1 h2
      exact congrArg KeyValue.stringVal (strLess_conn h1 h2)

theorem valsLess_irrefl (l : List KeyValue) : valsLess l l = false := by
  induction l with
  | nil => rfl
  | cons a as ih => simp [valsLess, keyValLess_irrefl, ih]

theorem valsLess_trans {x y z : List KeyValue} (h1 : valsLess x y = true)
    (h2 : valsLess y z = true) : valsLess x z = true := by
  induction x generalizing y z with
  | nil =>
    cases y with
    | nil => simp [valsLess] at h1
    | cons b bs =>
      cases z with
      | nil => simp [valsLess] at h2
      | cons c cs => simp [valsLess]
  | cons a as ih =>
    cases y with
    | nil => simp [valsLess] at h1
    | cons b bs =>
      cases z with
      | nil => simp [valsLess] at h2
      | cons c cs =>
        simp only [valsLess, Bool.or_eq_true, Bool.and_eq_true, decide_eq_true_eq] at h1 h2 ⊢
        rcases h1 with h1 | ⟨rfl, h1⟩
        · rcases h2 with h2 | ⟨rfl, _⟩
          · exact Or.inl (keyValLess_trans h1 h2)
          · exact Or.inl h1
        · rcases h2 with h2 | ⟨rfl, h2⟩
          · exact Or.inl h2
          · exact Or.inr ⟨rfl, ih h1 h2⟩

theorem valsLess_conn {x y : List KeyValue} (h1 : valsLess x y = false)
    (h2 : valsLess y x = false) : x = y := by
  induction x generalizing y with
  | nil =>
    cases y with
    | nil => rfl
    | cons b bs => simp [valsLess] at h1
  | cons a as ih =>
    cases y with
    | nil => simp [valsLess] at h2
    | cons b bs =>
      simp only [valsLess, Bool.or_eq_false_iff, Bool.and_eq_false_iff,
        decide_eq_false_iff_not] at h1 h2
      obtain ⟨hab, h1'⟩ := h1
      obtain ⟨hba, h2'⟩ := h2
      have hab' : a = b := keyValLess_conn hab hba
      subst hab'
      rcases h1' with h | h1' <;> rcases h2' with h' | h2'
      · exact absurd rfl h
      · exact absurd rfl h
      · exact absurd rfl h'
      · exact congrArg (a :: ·) (ih h1' h2')

theorem valsLess_asymm {x y : List KeyValue} (h : valsLess x y = true) :
    valsLess y x = false := by
  cases hyx : valsLess y x with
  | false => rfl
  | true =>
    have hxx := valsLess_trans h hyx
    rw [valsLess_irrefl] at hxx
    exact Bool.noConfusion hxx

theorem valsLess_le_trans {a b c : List KeyValue} (h1 : valsLess b a = false)
    (h2 : valsLess c b = false) : valsLess c a = false := by
  cases hca : valsLess c a with
  | false => rfl
  | true =>
    cases hab : valsLess a b with
    | true =>
      have hcb : valsLess c b = true := valsLess_trans hca hab
      rw [hcb] at h2
      exact Bool.noConfusion h2
    | false =>
      have hab' : a = b := valsLess_conn hab h1
      subst hab'
      rw [hca] at h2
      exact Bool.noConfusion h2

theorem keyLess_irrefl (k : GroupKey) : keyLess k k = false := valsLess_irrefl _

theorem keyLess_le_trans {a b c : GroupKey} (h1 : keyLess b a = false)
    (h2 : keyLess c b = false) : keyLess c a = false := valsLess_le_trans h1 h2

theorem keyLess_asymm {a b : GroupKey} (h : keyLess a b = true) :
    keyLess b a = false := valsLess_asymm h

/-- Non-decreasing chains of group keys (consecutive elements never step down). -/
theorem chainLE_lowerBound {c k0 : GroupKey} {ks : List GroupKey}
    (h : chainLE (k0 :: ks)) (hc : keyLess k0 c = false) :
    ∀ k ∈ k0 :: ks, keyLess k c = false := by
  induction ks generalizing k0 with
  | nil => simpa using hc
  | cons k1 ks ih =>
    intro k hk
    rcases List.mem_cons.mp hk with rfl | hk
    · exact hc
    · have h1 : keyLess k1 k0 = false := (List.chain'_cons.mp h).1
      have hc1 : keyLess k1 c = false := keyLess_le_trans hc h1
      exact ih (List.chain'_cons.mp h).2 hc1 k hk

theorem chainLE_tail {k0 : GroupKey} {ks : List GroupKey}
    (h : chainLE (k0 :: ks)) : chainLE ks := List.Chain'.tail h

/-! ### Table column schema derivation -/

theorem computeKey_fields (s : StreamState) :
    (s.computeKey).buffer = s.buffer ∧ (s.computeKey).pending = s.pending ∧
    (s.computeKey).readSpec = s.readSpec ∧ (s.computeKey).bounds = s.bounds ∧
    (s.computeKey).group = s.group ∧ (s.computeKey).finished = s.finished := by
  unfold StreamState.computeKey
  rcases hb : s.buffer.head? with _ | f <;> simp only [hb]
  · exact ⟨trivial, trivial, trivial, trivial, trivial, trivial⟩
  · rcases hk : frameKey s.readSpec s.bounds s.group f with _ | k <;> simp only [hk] <;>
      exact ⟨trivial, trivial, trivial, trivial, trivial, trivial⟩

theorem remOf_computeKey (s : StreamState) : remOf s.computeKey = remOf s := by
  unfold StreamState.computeKey
  rcases hb : s.buffer with _ | ⟨f, bt⟩
  · simp [hb]
  · simp only [hb, List.head?_cons]
    rcases hk : frameKey s.readSpec s.bounds s.group f with _ | k
    · simp
    · simp [remOf, hb, withKeys, hk]

theorem computeKey_headKey (s : StreamState) :
    ∀ f, (s.computeKey).buffer.head? = some f →
    ∀ k, frameKey s.readSpec s.bounds s.group f = some k → k = (s.computeKey).currentKey := by
  intro f hf k hk
  have hbuf : (s.computeKey).buffer = s.buffer := (computeKey_fields s).1
  rw [hbuf] at hf
  unfold StreamState.computeKey
  simp only [hf, hk]

theorem remOf_cons {s : StreamState} (hInv : StreamInv s) {f : Frame} {bt : List Frame}
    (hb : s.buffer = f :: bt) :
    remOf s = (s.currentKey, f) ::
      withKeys s.readSpec s.bounds s.group s.currentKey (bt ++ s.pending.flatten) := by
  rcases hk : frameKey s.readSpec s.bounds s.group f with _ | k
  · simp [remOf, hb, withKeys, hk]
  · have hks : k = s.currentKey := hInv.headKey f (by simp [hb]) k hk
    subst hks
    simp [remOf, hb, withKeys, hk]

theorem chainLE_of_rem {s t : StreamState} (h : remOf t = remOf s)
    (hc : chainLE (remKeys s)) : chainLE (remKeys t) := by
  unfold remKeys
  rw [h]
  exact hc

theorem chainLE_tail_of_rem {s : StreamState} {t : StreamState} {p : GroupKey × Frame}
    (h : remOf s = p :: remOf t) (hc : chainLE (remKeys s)) : chainLE (remKeys t) := by
  unfold remKeys at hc ⊢
  rw [h] at hc
  simp only [List.map_cons] at hc
  exact List.Chain'.tail hc

theorem streamMore_spec {s : StreamState} (hInv : StreamInv s) :
    StreamInv (s.more).2 ∧
    remOf (s.more).2 = remOf s ∧
    (s.more).2.readSpec = s.readSpec ∧ (s.more).2.bounds = s.bounds ∧
    (s.more).2.group = s.group ∧
    ((s.more).1 = true → (s.more).2.buffer ≠ []) ∧
    ((s.more).1 = false → remOf s = []) := by
  cases hfin : s.finished with
  | true =>
    obtain ⟨hb, hp⟩ := hInv.fin hfin
    have hsm : s.more = (false, s) := by
      unfold StreamState.more
      rw [hfin]
      simp
    rw [hsm]
    refine ⟨hInv, rfl, rfl, rfl, rfl, ?_, ?_⟩
    · intro h
      exact absurd h (by simp)
    · intro _
      simp [remOf, hb, hp, withKeys]
  | false =>
    rcases hb : s.buffer with _ | ⟨f, bt⟩
    · rcases hp : s.pending with _ | ⟨batch, rest⟩
      · have hsm : s.more = (false, { s with finished := true }) := by
          unfold StreamState.more
          rw [hfin, hp]
          simp [hb]
        rw [hsm]
        have hrem : remOf ({ s with finished := true } : StreamState) = remOf s := rfl
        refine ⟨?_, hrem, rfl, rfl, rfl, ?_, ?_⟩
        · refine ⟨?_, fun _ => ⟨hb, hp⟩, ?_, ?_⟩
          · intro b hbm
            rw [hp] at hbm
            exact absurd hbm (List.not_mem_nil b)
          · intro g hg
            simp [hb] at hg
          · exact chainLE_of_rem hrem hInv.chain
        · intro h
          exact absurd h (by simp)
        · intro _
          simp [remOf, hb, hp, withKeys]
      · have hbne : batch ≠ [] :=
          hInv.batches batch (by rw [hp]; exact List.mem_cons_self _ _)
        have hsm : s.more =
            (true, ({ s with buffer := batch, pending := rest } : StreamState).computeKey) := by
          unfold StreamState.more
          rw [hfin, hp]
          simp [hb, hbne]
        rw [hsm]
        set s1 : StreamState := { s with buffer := batch, pending := rest } with hs1
        have hrem1 : remOf s1 = remOf s := by
          simp [remOf, hs1, hb, hp]
        have hremc : remOf s1.computeKey = remOf s1 := remOf_computeKey s1
        have hfields := computeKey_fields s1
        refine ⟨?_, by rw [hremc, hrem1], ?_, ?_, ?_, ?_, ?_⟩
        · refine ⟨?_, ?_, ?_, ?_⟩
          · intro b hbm
            rw [hfields.2.1] at hbm
            exact hInv.batches b (by rw [hp]; exact List.mem_cons_of_mem _ hbm)
          · intro h
            rw [hfields.2.2.2.2.2, hs1] at h
            simp [hfin] at h
          · intro g hg k hk
            rw [hfields.2.2.1, hfields.2.2.2.1, hfields.2.2.2.2.1] at hk
            exact computeKey_headKey s1 g hg k hk
          · exact chainLE_of_rem (by rw [hremc, hrem1]) hInv.chain
        · rw [hfields.2.2.1]
        · rw [hfields.2.2.2.1]
        · rw [hfields.2.2.2.2.1]
        · intro _
          rw [hfields.1]
          exact hbne
        · intro h
          exact absurd h (by simp)
    · have hsm : s.more = (true, s) := by
        unfold StreamState.more
        rw [hfin]
        simp [hb]
      rw [hsm]
      refine ⟨hInv, rfl, rfl, rfl, rfl, ?_, ?_⟩
      · intro _
        rw [hb]
        simp
      · intro h
        exact absurd h (by simp)

theorem streamNext_spec {s : StreamState} (hInv : StreamInv s) (hbuf : s.buffer ≠ []) :
    StreamInv (s.next).2 ∧
    remOf s = (s.currentKey, (s.next).1) :: remOf (s.next).2 ∧
    (s.next).1 = s.peek ∧
    (s.next).2.readSpec = s.readSpec ∧ (s.next).2.bounds = s.bounds ∧
    (s.next).2.group = s.group ∧ (s.next).2.finished = s.finished := by
  have hfin : s.finished = false := by
    cases h : s.finished
    · rfl
    · exact absurd (hInv.fin h).1 hbuf
  rcases hb : s.buffer with _ | ⟨f, bt⟩
  · exact absurd hb hbuf
  have hremS := remOf_cons hInv hb
  have hpeek : s.peek = f := by simp [StreamState.peek, hb]
  set s1 : StreamState := { s with buffer := bt } with hs1
  have hrem1 : remOf s1 =
      withKeys s.readSpec s.bounds s.group s.currentKey (bt ++ s.pending.flatten) := rfl
  by_cases hbt : bt ≠ []
  · have hsn : s.next = (f, s1.computeKey) := by
      unfold StreamState.next
      rw [hb]
      simp [hbt]
    rw [hsn]
    have hremc : remOf s1.computeKey = remOf s1 := remOf_computeKey s1
    have hfields := computeKey_fields s1
    have hremEq : remOf s = (s.currentKey, f) :: remOf s1.computeKey := by
      rw [hremc, hrem1]
      exact hremS
    refine ⟨⟨?_, ?_, ?_, ?_⟩, hremEq, hpeek.symm, ?_, ?_, ?_, ?_⟩
    · intro b hbm
      rw [hfields.2.1] at hbm
      exact hInv.batches b hbm
    · intro h
      rw [hfields.2.2.2.2.2, hs1] at h
      simp [hfin] at h
    · intro g hg k hk
      rw [hfields.2.2.1, hfields.2.2.2.1, hfields.2.2.2.2.1] at hk
      exact computeKey_headKey s1 g hg k hk
    · exact chainLE_tail_of_rem hremEq hInv.chain
    · rw [hfields.2.2.1]
    · rw [hfields.2.2.2.1]
    · rw [hfields.2.2.2.2.1]
    · rw [hfields.2.2.2.2.2]
  · push_neg at hbt
    subst hbt
    have hsn : s.next = (f, s1) := by
      unfold StreamState.next
      rw [hb]
      simp
    rw [hsn]
    have hremEq : remOf s = (s.currentKey, f) :: remOf s1 := by
      rw [hrem1]
      exact hremS
    refine ⟨⟨hInv.batches, ?_, ?_, ?_⟩, hremEq, hpeek.symm, rfl, rfl, rfl, rfl⟩
    · intro h
      rw [hs1] at h
      simp [hfin] at h
    · intro g hg
      rw [hs1] at hg
      simp at hg
    · exact chainLE_tail_of_rem hremEq hInv.chain

theorem keyLess_trans {a b c : GroupKey} (h1 : keyLess a b = true)
    (h2 : keyLess b c = true) : keyLess a c = true := valsLess_trans h1 h2

theorem remKeys_cons {s : StreamState} (hInv : StreamInv s) {f : Frame} {bt : List Frame}
    (hb : s.buffer = f :: bt) :
    remKeys s = s.currentKey ::
      (withKeys s.readSpec s.bounds s.group s.currentKey (bt ++ s.pending.flatten)).map
        Prod.fst := by
  unfold remKeys
  rw [remOf_cons hInv hb]
  simp

theorem remKeys_lowerBound {s : StreamState} (hInv : StreamInv s) (hbuf : s.buffer ≠ [])
    {c : GroupKey} (hc : keyLess s.currentKey c = false) :
    ∀ k ∈ remKeys s, keyLess k c = false := by
  rcases hb : s.buffer with _ | ⟨f, bt⟩
  · exact absurd hb hbuf
  have htl := remKeys_cons hInv hb
  have hch := hInv.chain
  rw [chainLE] at hch
  rw [htl] at hch
  intro k hk
  rw [htl] at hk
  exact chainLE_lowerBound hch hc k hk

theorem determineNewKeyScan_cons (s : StreamState) (rest : List StreamState)
    (idx mi : Int) (mk : Option GroupKey) :
    determineNewKeyScan (s :: rest) idx mi mk =
      if (s.more).1 = true then
        (if (decide (mi = -1) ||
            (match mk with
              | some m => keyLess (s.more).2.key m
              | none => false)) = true then
          ((s.more).2 :: (determineNewKeyScan rest (idx + 1) idx (some (s.more).2.key)).1,
            (determineNewKeyScan rest (idx + 1) idx (some (s.more).2.key)).2)
        else
          ((s.more).2 :: (determineNewKeyScan rest (idx + 1) mi mk).1,
            (determineNewKeyScan rest (idx + 1) mi mk).2))
      else
        ((s.more).2 :: (determineNewKeyScan rest (idx + 1) mi mk).1,
          (determineNewKeyScan rest (idx + 1) mi mk).2) := rfl

/-- Full accounting of the `determineNewKey` scan loop: streams are refilled
but not consumed, the accumulator tracks the first stream holding the minimal
key, and a `none` result means every stream is exhausted. -/
theorem determineNewKeyScan_spec :
    ∀ (ss : List StreamState) (idx mi : Int) (mk : Option GroupKey),
    (∀ s ∈ ss, StreamInv s) → 0 ≤ idx → (mi = -1 ↔ mk = none) →
    (determineNewKeyScan ss idx mi mk).1.length = ss.length ∧
    (determineNewKeyScan ss idx mi mk).1.map remOf = ss.map remOf ∧
    (∀ s ∈ (determineNewKeyScan ss idx mi mk).1, StreamInv s) ∧
    ((determineNewKeyScan ss idx mi mk).2.2 = none →
      (determineNewKeyScan ss idx mi mk).2.1 = mi ∧ mk = none ∧
      ∀ s ∈ (determineNewKeyScan ss idx mi mk).1, remOf s = []) ∧
    (∀ m1, (determineNewKeyScan ss idx mi mk).2.2 = some m1 →
      (∀ s ∈ (determineNewKeyScan ss idx mi mk).1, ∀ k ∈ remKeys s,
        keyLess k m1 = false) ∧
      (∀ m, mk = some m → keyLess m m1 = false) ∧
      (((determineNewKeyScan ss idx mi mk).2.1 = mi ∧
        (determineNewKeyScan ss idx mi mk).2.2 = mk) ∨
        (∃ j : Nat, j < (determineNewKeyScan ss idx mi mk).1.length ∧
          (determineNewKeyScan ss idx mi mk).2.1 = idx + (j : Int) ∧
          ∃ s1, (determineNewKeyScan ss idx mi mk).1.get? j = some s1 ∧
            s1.buffer ≠ [] ∧ s1.currentKey = m1))) := by
  intro ss
  induction ss with
  | nil =>
    intro idx mi mk _ _ hiff
    refine ⟨rfl, rfl, ?_, ?_, ?_⟩
    · intro t ht
      exact absurd ht (List.not_mem_nil t)
    · intro hn
      exact ⟨rfl, hn, fun t ht => absurd ht (List.not_mem_nil t)⟩
    · intro m1 hm1
      refine ⟨fun t ht => absurd ht (List.not_mem_nil t), ?_, Or.inl ⟨rfl, rfl⟩⟩
      intro m hm
      have hm1x : mk = some m1 := hm1
      rw [hm] at hm1x
      cases hm1x
      exact keyLess_irrefl m1
  | cons s rest ih =>
    intro idx mi mk hInv hidx hiff
    have hInvS : StreamInv s := hInv s (List.mem_cons_self _ _)
    have hInvR : ∀ t ∈ rest, StreamInv t := fun t ht => hInv t (List.mem_cons_of_mem _ ht)
    obtain ⟨hI, hRem, _, _, _, hBuf, hEmpty⟩ := streamMore_spec hInvS
    rcases hms : s.more with ⟨b, s1⟩
    rw [hms] at hI hRem hBuf hEmpty
    simp only at hI hRem hBuf hEmpty
    cases b with
    | false =>
      have hrem0 : remOf s = [] := hEmpty rfl
      have hrem1 : remOf s1 = [] := by rw [hRem]; exact hrem0
      have hscan : determineNewKeyScan (s :: rest) idx mi mk =
          (s1 :: (determineNewKeyScan rest (idx + 1) mi mk).1,
            (determineNewKeyScan rest (idx + 1) mi mk).2) := by
        rw [determineNewKeyScan_cons, hms]
        simp
      obtain ⟨ihLen, ihMap, ihInv, ihNone, ihSome⟩ :=
        ih (idx + 1) mi mk hInvR (by omega) hiff
      rw [hscan]
      refine ⟨by simp [ihLen], by simp [ihMap, hRem, hrem0, hrem1], ?_, ?_, ?_⟩
      · intro t ht
        rcases List.mem_cons.mp ht with rfl | ht
        · exact hI
        · exact ihInv t ht
      · intro hn
        obtain ⟨h1, h2, h3⟩ := ihNone hn
        refine ⟨h1, h2, ?_⟩
        intro t ht
        rcases List.mem_cons.mp ht with rfl | ht
        · exact hrem1
        · exact h3 t ht
      · intro m1 hm1
        obtain ⟨h1, h2, h3⟩ := ihSome m1 hm1
        refine ⟨?_, h2, ?_⟩
        · intro t ht
          rcases List.mem_cons.mp ht with rfl | ht
          · intro k hk
            rw [remKeys, hrem1] at hk
            exact absurd hk (List.not_mem_nil k)
          · exact h1 t ht
        · rcases h3 with h3 | ⟨j, hj1, hj2, s2, hj3, hj4, hj5⟩
          · exact Or.inl h3
          · refine Or.inr ⟨j + 1, by simpa using Nat.succ_lt_succ hj1, by push_cast; omega,
              s2, by simpa using hj3, hj4, hj5⟩
    | true =>
      have hbuf1 : s1.buffer ≠ [] := hBuf rfl
      have hiffT : idx = -1 ↔ (some s1.key : Option GroupKey) = none := by
        constructor
        · intro h
          exact absurd h (by omega)
        · intro h
          exact Option.noConfusion h
      cases mk with
      | none =>
        have hmi : mi = -1 := hiff.mpr rfl
        have hscan : determineNewKeyScan (s :: rest) idx mi none =
            (s1 :: (determineNewKeyScan rest (idx + 1) idx (some s1.key)).1,
              (determineNewKeyScan rest (idx + 1) idx (some s1.key)).2) := by
          rw [determineNewKeyScan_cons, hms, hmi]
          simp
        obtain ⟨ihLen, ihMap, ihInv, ihNone, ihSome⟩ :=
          ih (idx + 1) idx (some s1.key) hInvR (by omega) hiffT
        rw [hscan]
        refine ⟨by simp [ihLen], by simp [ihMap, hRem], ?_, ?_, ?_⟩
        · intro t ht
          rcases List.mem_cons.mp ht with rfl | ht
          · exact hI
          · exact ihInv t ht
        · intro hn
          obtain ⟨_, h2, _⟩ := ihNone hn
          exact Option.noConfusion h2
        · intro m1 hm1
          obtain ⟨h1, h2, h3⟩ := ihSome m1 hm1
          have hkm1 : keyLess s1.key m1 = false := h2 s1.key rfl
          refine ⟨?_, ?_, ?_⟩
          · intro t ht
            rcases List.mem_cons.mp ht with rfl | ht
            · exact remKeys_lowerBound hI hbuf1 hkm1
            · exact h1 t ht
          · intro m hm
            exact Option.noConfusion hm
          · rcases h3 with ⟨h3a, h3b⟩ | ⟨j, hj1, hj2, s2, hj3, hj4, hj5⟩
            · refine Or.inr ⟨0, by simp, by rw [h3a]; omega, s1, rfl, hbuf1, ?_⟩
              rw [h3b] at hm1
              cases hm1
              rfl
            · refine Or.inr ⟨j + 1, by simpa using Nat.succ_lt_succ hj1, by push_cast; omega,
                s2, by simpa using hj3, hj4, hj5⟩
      | some m =>
        have hmi : ¬ mi = -1 := by
          intro h
          exact Option.noConfusion (hiff.mp h)
        cases hlt : keyLess s1.key m with
        | true =>
          have hscan : determineNewKeyScan (s :: rest) idx mi (some m) =
              (s1 :: (determineNewKeyScan rest (idx + 1) idx (some s1.key)).1,
                (determineNewKeyScan rest (idx + 1) idx (some s1.key)).2) := by
            rw [determineNewKeyScan_cons, hms]
            simp [hmi, hlt]
          obtain ⟨ihLen, ihMap, ihInv, ihNone, ihSome⟩ :=
            ih (idx + 1) idx (some s1.key) hInvR (by omega) hiffT
          rw [hscan]
          refine ⟨by simp [ihLen], by simp [ihMap, hRem], ?_, ?_, ?_⟩
          · intro t ht
            rcases List.mem_cons.mp ht with rfl | ht
            · exact hI
            · exact ihInv t ht
          · intro hn
            obtain ⟨_, h2, _⟩ := ihNone hn
            exact Option.noConfusion h2
          · intro m1 hm1
            obtain ⟨h1, h2, h3⟩ := ihSome m1 hm1
            have hkm1 : keyLess s1.key m1 = false := h2 s1.key rfl
            refine ⟨?_, ?_, ?_⟩
            · intro t ht
              rcases List.mem_cons.mp ht with rfl | ht
              · exact remKeys_lowerBound hI hbuf1 hkm1
              · exact h1 t ht
            · intro m2 hm2
              cases hm2
              cases hmm1 : keyLess m m1 with
              | false => rfl
              | true =>
                have hx : keyLess s1.key m1 = true := keyLess_trans hlt hmm1
                rw [hx] at hkm1
                exact Bool.noConfusion hkm1
            · rcases h3 with ⟨h3a, h3b⟩ | ⟨j, hj1, hj2, s2, hj3, hj4, hj5⟩
              · refine Or.inr ⟨0, by simp, by rw [h3a]; omega, s1, rfl, hbuf1, ?_⟩
                rw [h3b] at hm1
                cases hm1
                rfl
              · refine Or.inr ⟨j + 1, by simpa using Nat.succ_lt_succ hj1, by push_cast; omega,
                  s2, by simpa using hj3, hj4, hj5⟩
        | false =>
          have hscan : determineNewKeyScan (s :: rest) idx mi (some m) =
              (s1 :: (determineNewKeyScan rest (idx + 1) mi (some m)).1,
                (determineNewKeyScan rest (idx + 1) mi (some m)).2) := by
            rw [determineNewKeyScan_cons, hms]
            simp [hmi, hlt]
          obtain ⟨ihLen, ihMap, ihInv, ihNone, ihSome⟩ :=
            ih (idx + 1) mi (some m) hInvR (by omega) hiff
          rw [hscan]
          refine ⟨by simp [ihLen], by simp [ihMap, hRem], ?_, ?_, ?_⟩
          · intro t ht
            rcases List.mem_cons.mp ht with rfl | ht
            · exact hI
            · exact ihInv t ht
          · intro hn
            obtain ⟨_, h2, _⟩ := ihNone hn
            exact Option.noConfusion h2
          · intro m1 hm1
            obtain ⟨h1, h2, h3⟩ := ihSome m1 hm1
            have hmm1 : keyLess m m1 = false := h2 m rfl
            refine ⟨?_, h2, ?_⟩
            · intro t ht
              rcases List.mem_cons.mp ht with rfl | ht
              · exact remKeys_lowerBound hI hbuf1 (keyLess_le_trans hmm1 hlt)
              · exact h1 t ht
            · rcases h3 with h3 | ⟨j, hj1, hj2, s2, hj3, hj4, hj5⟩
              · exact Or.inl h3
              · refine Or.inr ⟨j + 1, by simpa using Nat.succ_lt_succ hj1, by push_cast; omega,
                  s2, by simpa using hj3, hj4, hj5⟩

/-! ### List bookkeeping helpers -/

theorem list_set_getD {α : Type} [Inhabited α] (l : List α) (n : Nat) :
    l.set n (l.getD n default) = l := by
  induction l generalizing n with
  | nil => rfl
  | cons a as ih =>
    cases n with
    | zero => simp [List.getD]
    | succ n => simpa [List.getD] using ih n

theorem list_getD_of_get? {α : Type} [Inhabited α] {l : List α} {n : Nat} {a : α}
    (h : l.get? n = some a) : l.getD n default = a := by
  induction l generalizing n with
  | nil => simp at h
  | cons x xs ih =>
    cases n with
    | zero => simp_all [List.getD]
    | succ n => simp_all [List.getD]

theorem list_get?_of_lt {α : Type} [Inhabited α] {l : List α} {n : Nat}
    (h : n < l.length) : l.get? n = some (l.getD n default) := by
  induction l generalizing n with
  | nil => simp at h
  | cons x xs ih =>
    cases n with
    | zero => simp [List.getD]
    | succ n =>
      simp only [List.length_cons, Nat.succ_lt_succ_iff] at h
      simpa [List.getD] using ih h

theorem list_getD_mem {α : Type} [Inhabited α] {l : List α} {n : Nat}
    (h : n < l.length) : l.getD n default ∈ l := by
  induction l generalizing n with
  | nil => simp at h
  | cons x xs ih =>
    cases n with
    | zero => simp [List.getD]
    | succ n =>
      simp only [List.length_cons, Nat.succ_lt_succ_iff] at h
      exact List.mem_cons_of_mem _ (by simpa [List.getD] using ih h)

theorem list_getD_set_self {α : Type} [Inhabited α] (l : List α) (n : Nat) (a : α)
    (h : n < l.length) : (l.set n a).getD n default = a := by
  induction l generalizing n with
  | nil => simp at h
  | cons x xs ih =>
    cases n with
    | zero => simp [List.getD]
    | succ n =>
      simp only [List.length_cons, Nat.succ_lt_succ_iff] at h
      simpa [List.getD] using ih _ h

theorem list_map_set_of_eq {α β : Type} [Inhabited α] (f : α → β) (l : List α) (n : Nat)
    (a : α) (h : f a = f (l.getD n default)) : (l.set n a).map f = l.map f := by
  induction l generalizing n with
  | nil => rfl
  | cons x xs ih =>
    cases n with
    | zero => simp_all [List.getD]
    | succ n =>
      simp only [List.getD_cons_succ] at h
      simp [List.set, ih _ h]

theorem sum_len_set {β : Type} {l : List (List β)} :
    ∀ {n : Nat} {x old : List β}, l.get? n = some old → old.length = x.length + 1 →
    ((l.set n x).map List.length).sum + 1 = (l.map List.length).sum := by
  induction l with
  | nil => intro n x old h; simp at h
  | cons y ys ih =>
    intro n x old h hlen
    cases n with
    | zero =>
      simp only [List.get?] at h
      cases h
      simp [hlen]
      omega
    | succ n =>
      simp only [List.get?] at h
      have := ih h hlen
      simp only [List.set, List.map_cons, List.sum_cons]
      omega

/-! ### Merge-cursor invariant -/

/-- The set view of `allRemKeys`. -/
theorem mem_allRemKeys {ms : MergedStreams} {k : GroupKey} :
    k ∈ allRemKeys ms ↔ ∃ s ∈ ms.streams, k ∈ remKeys s := by
  unfold allRemKeys remKeys
  constructor
  · intro hk
    obtain ⟨p, hp, rfl⟩ := List.mem_map.mp hk
    obtain ⟨l, hl, hpl⟩ := List.mem_flatten.mp hp
    obtain ⟨s, hs, rfl⟩ := List.mem_map.mp hl
    exact ⟨s, hs, List.mem_map.mpr ⟨p, hpl, rfl⟩⟩
  · rintro ⟨s, hs, hk⟩
    obtain ⟨p, hp, rfl⟩ := List.mem_map.mp hk
    exact List.mem_map.mpr ⟨p, List.mem_flatten.mpr ⟨remOf s, List.mem_map.mpr ⟨s, hs, rfl⟩, hp⟩, rfl⟩

theorem allRemKeys_congr {ms1 ms2 : MergedStreams}
    (h : ms1.streams.map remOf = ms2.streams.map remOf) :
    allRemKeys ms1 = allRemKeys ms2 := by
  unfold allRemKeys
  rw [h]

theorem totalRem_congr {ms1 ms2 : MergedStreams}
    (h : ms1.streams.map remOf = ms2.streams.map remOf) :
    totalRem ms1 = totalRem ms2 := by
  unfold totalRem
  rw [h]

/-- Global invariant of the merge cursor between driver steps. -/
theorem streamAt_mem {ms : MergedStreams} {n : Nat} (h : n < ms.streams.length) :
    ms.streamAt n ∈ ms.streams := list_getD_mem h

theorem setStreamAt_self (ms : MergedStreams) (n : Nat) :
    ms.setStreamAt n (ms.streamAt n) = ms := by
  unfold MergedStreams.setStreamAt MergedStreams.streamAt
  rw [list_set_getD]

theorem streamAt_set {ms : MergedStreams} {n : Nat} (s : StreamState)
    (h : n < ms.streams.length) : (ms.setStreamAt n s).streamAt n = s :=
  list_getD_set_self _ _ _ h

theorem determineNewKey_spec {ms : MergedStreams}
    (hInv : ∀ s ∈ ms.streams, StreamInv s) :
    (ms.determineNewKey).2.streams.map remOf = ms.streams.map remOf ∧
    (∀ s ∈ (ms.determineNewKey).2.streams, StreamInv s) ∧
    (ms.determineNewKey).2.streams.length = ms.streams.length ∧
    ((ms.determineNewKey).1 = false → (ms.determineNewKey).2.i < 0 ∧
      (ms.determineNewKey).2.currentKey = none ∧
      ∀ s ∈ (ms.determineNewKey).2.streams, remOf s = []) ∧
    ((ms.determineNewKey).1 = true → ∃ ck,
      (ms.determineNewKey).2.currentKey = some ck ∧
      0 ≤ (ms.determineNewKey).2.i ∧
      (ms.determineNewKey).2.i < ((ms.determineNewKey).2.streams.length : Int) ∧
      ((ms.determineNewKey).2.streamAt (ms.determineNewKey).2.i.toNat).buffer ≠ [] ∧
      ((ms.determineNewKey).2.streamAt (ms.determineNewKey).2.i.toNat).currentKey = ck ∧
      ∀ k ∈ allRemKeys (ms.determineNewKey).2, keyLess k ck = false) := by
  obtain ⟨hLen, hMap, hI, hNone, hSome⟩ :=
    determineNewKeyScan_spec ms.streams 0 (-1) none hInv (by omega) (by simp)
  rcases hscan : determineNewKeyScan ms.streams 0 (-1) none with ⟨ss1, mi1, mk1⟩
  rw [hscan] at hLen hMap hI hNone hSome
  simp only at hLen hMap hI hNone hSome
  have hdnk : ms.determineNewKey =
      (decide (0 ≤ mi1), { streams := ss1, currentKey := mk1, i := mi1 }) := by
    unfold MergedStreams.determineNewKey
    rw [hscan]
  rw [hdnk]
  refine ⟨hMap, hI, hLen, ?_, ?_⟩
  · intro hfalse
    have hmi : ¬ 0 ≤ mi1 := by simpa using hfalse
    show mi1 < 0 ∧ mk1 = none ∧ ∀ s ∈ ss1, remOf s = []
    cases mk1 with
    | none =>
      obtain ⟨h1, _, h3⟩ := hNone rfl
      exact ⟨by omega, rfl, h3⟩
    | some m1 =>
      obtain ⟨_, _, h3⟩ := hSome m1 rfl
      rcases h3 with ⟨h3a, h3b⟩ | ⟨j, _, hj2, _⟩
      · exact Option.noConfusion h3b
      · exfalso
        omega
  · intro htrue
    have hmi : 0 ≤ mi1 := by simpa using htrue
    show ∃ ck, mk1 = some ck ∧ 0 ≤ mi1 ∧ mi1 < (ss1.length : Int) ∧
      (ss1.getD mi1.toNat default).buffer ≠ [] ∧
      (ss1.getD mi1.toNat default).currentKey = ck ∧
      ∀ k ∈ ((ss1.map remOf).flatten).map Prod.fst, keyLess k ck = false
    cases mk1 with
    | none =>
      obtain ⟨h1, _, _⟩ := hNone rfl
      exfalso
      omega
    | some m1 =>
      obtain ⟨h1, _, h3⟩ := hSome m1 rfl
      rcases h3 with ⟨h3a, h3b⟩ | ⟨j, hj1, hj2, s1, hj3, hj4, hj5⟩
      · exact Option.noConfusion h3b
      · have hjn : mi1.toNat = j := by omega
        have hat : ss1.getD mi1.toNat default = s1 := by
          rw [hjn]
          exact list_getD_of_get? hj3
        refine ⟨m1, rfl, hmi, by omega, ?_, ?_, ?_⟩
        · rw [hat]
          exact hj4
        · rw [hat]
          exact hj5
        · intro k hk
          obtain ⟨t, ht, hkt⟩ :=
            (@mem_allRemKeys ⟨ss1, some m1, mi1⟩ k).mp hk
          exact h1 t ht k hkt

theorem mergedLoopF_succ_false (fuel : Nat) (ms : MergedStreams) :
    mergedLoopF (fuel + 1) false ms =
      if ms.streams.length = 1 then
        ((ms.streamAt 0).more.1, ms.setStreamAt 0 (ms.streamAt 0).more.2)
      else if ms.i < 0 then (false, ms)
      else
        match ms.currentKey with
        | none => ms.determineNewKey
        | some ck =>
          if (ms.streamAt ms.i.toNat).more.1 = true then
            if keyEqual (ms.streamAt ms.i.toNat).more.2.key ck = true then
              (true, ms.setStreamAt ms.i.toNat (ms.streamAt ms.i.toNat).more.2)
            else
              mergedLoopF fuel true
                (ms.setStreamAt ms.i.toNat (ms.streamAt ms.i.toNat).more.2)
          else
            mergedLoopF fuel true
              (ms.setStreamAt ms.i.toNat (ms.streamAt ms.i.toNat).more.2) := rfl

theorem mergedLoopF_succ_true (fuel : Nat) (ms : MergedStreams) :
    mergedLoopF (fuel + 1) true ms =
      if ms.i + 1 = (ms.streams.length : Int) then
        (if ({ ms with i := ms.i + 1 } : MergedStreams).determineNewKey.1 = true then
          mergedLoopF fuel false ({ ms with i := ms.i + 1 } : MergedStreams).determineNewKey.2
        else (false, ({ ms with i := ms.i + 1 } : MergedStreams).determineNewKey.2))
      else mergedLoopF fuel false ({ ms with i := ms.i + 1 } : MergedStreams) := rfl

/-- From a state freshly selected by `determineNewKey`, one more `more()` step
answers true without changing anything (the selected stream's buffer is
non-empty and its key is, reflexively, the merge key). -/
theorem mergedLoopF_selected {ms : MergedStreams} {m : GroupKey} (g : Nat)
    (hlen : ms.streams.length ≠ 1) (hck : ms.currentKey = some m)
    (hi : 0 ≤ ms.i)
    (hbuf : (ms.streamAt ms.i.toNat).buffer ≠ [])
    (hfin : (ms.streamAt ms.i.toNat).finished = false)
    (hkey : (ms.streamAt ms.i.toNat).currentKey = m) :
    mergedLoopF (g + 1) false ms = (true, ms) := by
  have hsm : (ms.streamAt ms.i.toNat).more = (true, ms.streamAt ms.i.toNat) := by
    unfold StreamState.more
    rw [hfin]
    simp [hbuf]
  have hneg : ¬ ms.i < 0 := by omega
  rw [mergedLoopF_succ_false, if_neg hlen, if_neg hneg, hck]
  simp only [hsm]
  rw [StreamState.key, hkey]
  simp [keyEqual, setStreamAt_self]

theorem finished_false_of_buffer {s : StreamState} (hI : StreamInv s)
    (hbuf : s.buffer ≠ []) : s.finished = false := by
  cases hf : s.finished
  · rfl
  · exact absurd (hI.fin hf).1 hbuf

/-- A failed `determineNewKey` leaves an invariant, fully drained state. -/
theorem dnk_false_inv {ms : MergedStreams} (hInv : ∀ s ∈ ms.streams, StreamInv s)
    (hlen1 : ms.determineNewKey.2.streams.length ≠ 1)
    (hfalse : ms.determineNewKey.1 = false) :
    MergedInv ms.determineNewKey.2 ∧
    ∀ s ∈ ms.determineNewKey.2.streams, remOf s = [] := by
  obtain ⟨dMap, dInv, dLen, dFalse, dTrue⟩ := determineNewKey_spec hInv
  obtain ⟨h1, h2, h3⟩ := dFalse hfalse
  refine ⟨⟨dInv, fun hl => absurd hl hlen1, ?_, fun _ => Or.inr h3, fun _ => h3⟩, h3⟩
  intro ck2 hck2
  rw [h2] at hck2
  exact Option.noConfusion hck2

/-- A successful `determineNewKey` yields a selected state. -/
theorem dnk_true_selok {ms : MergedStreams} (hInv : ∀ s ∈ ms.streams, StreamInv s)
    (hlen1 : ms.determineNewKey.2.streams.length ≠ 1)
    (htrue : ms.determineNewKey.1 = true) :
    SelOK ms.determineNewKey.2 := by
  obtain ⟨dMap, dInv, dLen, dFalse, dTrue⟩ := determineNewKey_spec hInv
  obtain ⟨ck, hck', hi0, hilt, hbuf, hkey, hlow⟩ := dTrue htrue
  have hInvD : MergedInv ms.determineNewKey.2 := by
    refine ⟨dInv, fun hl => absurd hl hlen1, ?_, ?_, ?_⟩
    · intro ck2 hck2
      rw [hck'] at hck2
      cases hck2
      exact ⟨hi0, hilt, hlow⟩
    · intro h
      rw [hck'] at h
      exact Option.noConfusion h
    · intro h
      exact absurd h (by omega)
  have hkeyD : ms.determineNewKey.2.key = ck := by
    rw [MergedStreams.key, if_neg hlen1, hck']
    rfl
  refine ⟨hInvD, hi0, hilt, hbuf, ?_, ?_⟩
  · rw [StreamState.key, hkey, hkeyD]
  · rw [hkeyD]
    exact hlow

/-- The contract of one `more()` call: streams may be refilled but no frame is
handed out; `true` selects a stream whose head carries the merge key, a lower
bound for every unconsumed key; `false` means everything was consumed. -/
theorem mergedLoopF_more_spec :
    ∀ (fuel : Nat), ∀ (ms : MergedStreams), MergedInv ms →
    2 * (ms.streams.length - ms.i.toNat) + 2 ≤ fuel →
    MoreSpec ms (mergedLoopF fuel false ms) := by
  intro fuel
  induction fuel using Nat.strong_induction_on with
  | _ fuel ih =>
  intro ms hInv hfuel
  rcases fuel with _ | f
  · omega
  rw [mergedLoopF_succ_false]
  by_cases hlen1 : ms.streams.length = 1
  · -- single-stream fast path
    rw [if_pos hlen1]
    have hi0 : ms.i = 0 := hInv.sing hlen1
    have hlt0 : (0 : Nat) < ms.streams.length := by omega
    have hmem : ms.streamAt 0 ∈ ms.streams := streamAt_mem hlt0
    have hSI : StreamInv (ms.streamAt 0) := hInv.streams _ hmem
    obtain ⟨hI, hRem, _, _, _, hBuf, hEmpty⟩ := streamMore_spec hSI
    have hmap : (ms.setStreamAt 0 (ms.streamAt 0).more.2).streams.map remOf =
        ms.streams.map remOf := by
      unfold MergedStreams.setStreamAt
      exact list_map_set_of_eq remOf ms.streams 0 _ (by rw [hRem]; rfl)
    have hstr : ∀ t ∈ (ms.setStreamAt 0 (ms.streamAt 0).more.2).streams, StreamInv t := by
      intro t ht
      rcases List.mem_or_eq_of_mem_set ht with ht | rfl
      · exact hInv.streams t ht
      · exact hI
    have hlen' : (ms.setStreamAt 0 (ms.streamAt 0).more.2).streams.length =
        ms.streams.length := by
      unfold MergedStreams.setStreamAt
      simp
    have hInv' : MergedInv (ms.setStreamAt 0 (ms.streamAt 0).more.2) := by
      refine ⟨hstr, fun _ => hi0, ?_, ?_, ?_⟩
      · intro ck hck
        obtain ⟨h1, h2, h3⟩ := hInv.ckey ck hck
        refine ⟨h1, by rw [hlen']; exact h2, ?_⟩
        intro k hk
        rw [allRemKeys_congr hmap] at hk
        exact h3 k hk
      · intro _
        exact Or.inl (show (0 : Int) ≤ ms.i by omega)
      · intro hneg
        exact absurd (show ms.i < 0 from hneg) (by omega)
    refine ⟨hmap, hlen', ?_, ?_⟩
    · intro htrue
      have hbuf1 : (ms.streamAt 0).more.2.buffer ≠ [] := hBuf htrue
      have hat : (ms.setStreamAt 0 (ms.streamAt 0).more.2).streamAt 0 =
          (ms.streamAt 0).more.2 := streamAt_set _ hlt0
      have hii : (ms.setStreamAt 0 (ms.streamAt 0).more.2).i = ms.i := rfl
      have hkey' : (ms.setStreamAt 0 (ms.streamAt 0).more.2).key =
          (ms.streamAt 0).more.2.currentKey := by
        rw [MergedStreams.key, if_pos (by rw [hlen']; exact hlen1), hat]
        rfl
      show SelOK (ms.setStreamAt 0 (ms.streamAt 0).more.2)
      refine ⟨hInv', ?_, ?_, ?_, ?_, ?_⟩
      · rw [hii]
        omega
      · rw [hii, hlen']
        omega
      · rw [hii, hi0]
        simp only [Int.toNat_zero]
        rw [hat]
        exact hbuf1
      · rw [hii, hi0]
        simp only [Int.toNat_zero]
        rw [hat, hkey']
        rfl
      · intro k hk
        rw [allRemKeys_congr hmap] at hk
        obtain ⟨t, ht, hkt⟩ := mem_allRemKeys.mp hk
        rw [hkey']
        rcases hstreams : ms.streams with _ | ⟨s0, rest0⟩
        · rw [hstreams] at ht
          exact absurd ht (List.not_mem_nil t)
        · have hrest : rest0 = [] := by
            have hx := hlen1
            rw [hstreams] at hx
            simpa using hx
          subst hrest
          rw [hstreams] at ht
          have ht0 : t = s0 := by simpa using ht
          subst ht0
          have hs0 : ms.streamAt 0 = t := by
            unfold MergedStreams.streamAt
            rw [hstreams]
            rfl
          have hrem2 : remOf (ms.streamAt 0).more.2 = remOf t := by
            rw [hRem, hs0]
          have hkeys : k ∈ remKeys (ms.streamAt 0).more.2 := by
            unfold remKeys
            rw [hrem2]
            exact hkt
          exact remKeys_lowerBound hI (hBuf htrue) (keyLess_irrefl _) k hkeys
    · intro hfalse
      show MergedInv (ms.setStreamAt 0 (ms.streamAt 0).more.2) ∧
        ∀ s ∈ (ms.setStreamAt 0 (ms.streamAt 0).more.2).streams, remOf s = []
      refine ⟨hInv', ?_⟩
      intro t ht
      rcases List.mem_or_eq_of_mem_set ht with ht | rfl
      · rcases hstreams : ms.streams with _ | ⟨s0, rest0⟩
        · rw [hstreams] at ht
          exact absurd ht (List.not_mem_nil t)
        · have hrest : rest0 = [] := by
            have hx := hlen1
            rw [hstreams] at hx
            simpa using hx
          subst hrest
          rw [hstreams] at ht
          have ht0 : t = s0 := by simpa using ht
          subst ht0
          have hs0 : ms.streamAt 0 = t := by
            unfold MergedStreams.streamAt
            rw [hstreams]
            rfl
          rw [← hs0]
          exact hEmpty hfalse
      · rw [hRem]
        exact hEmpty hfalse
  · -- multi-stream path
    rw [if_neg hlen1]
    by_cases hineg : ms.i < 0
    · rw [if_pos hineg]
      refine ⟨rfl, rfl, ?_, fun _ => ⟨hInv, hInv.ineg hineg⟩⟩
      intro h
      exact absurd h (by simp)
    · rw [if_neg hineg]
      cases hck : ms.currentKey with
      | none =>
        show MoreSpec ms ms.determineNewKey
        obtain ⟨dMap, dInv, dLen, dFalse, dTrue⟩ := determineNewKey_spec hInv.streams
        have hlenD : ms.determineNewKey.2.streams.length ≠ 1 := by
          rw [dLen]
          exact hlen1
        refine ⟨dMap, dLen, ?_, ?_⟩
        · intro htrue
          exact dnk_true_selok hInv.streams hlenD htrue
        · intro hfalse
          exact dnk_false_inv hInv.streams hlenD hfalse
      | some m =>
        obtain ⟨hi0, hilt, hlow⟩ := hInv.ckey m hck
        have hjlt : ms.i.toNat < ms.streams.length := by omega
        have hmem := streamAt_mem hjlt
        have hSI := hInv.streams _ hmem
        obtain ⟨hI, hRem, _, _, _, hBuf, hEmpty⟩ := streamMore_spec hSI
        set s1 := (ms.streamAt ms.i.toNat).more.2 with hs1
        set ms1 := ms.setStreamAt ms.i.toNat s1 with hms1
        show MoreSpec ms
          (if (ms.streamAt ms.i.toNat).more.1 = true then
            (if keyEqual s1.key m = true then (true, ms1) else mergedLoopF f true ms1)
          else mergedLoopF f true ms1)
        have hms1i : ms1.i = ms.i := rfl
        have hms1ck : ms1.currentKey = ms.currentKey := rfl
        have hmap1 : ms1.streams.map remOf = ms.streams.map remOf := by
          rw [hms1]
          unfold MergedStreams.setStreamAt
          exact list_map_set_of_eq remOf ms.streams _ _ (by rw [hRem]; rfl)
        have hlen1' : ms1.streams.length = ms.streams.length := by
          rw [hms1]
          unfold MergedStreams.setStreamAt
          simp
        have hstr1 : ∀ t ∈ ms1.streams, StreamInv t := by
          intro t ht
          rcases List.mem_or_eq_of_mem_set ht with ht | rfl
          · exact hInv.streams t ht
          · exact hI
        have hInv1 : MergedInv ms1 := by
          refine ⟨hstr1, ?_, ?_, ?_, ?_⟩
          · intro h1
            rw [hlen1'] at h1
            exact absurd h1 hlen1
          · intro ck2 hck2
            rw [hms1ck, hck] at hck2
            cases hck2
            refine ⟨by rw [hms1i]; exact hi0, by rw [hms1i, hlen1']; exact hilt, ?_⟩
            intro k hk
            rw [allRemKeys_congr hmap1] at hk
            exact hlow k hk
          · intro h
            rw [hms1ck, hck] at h
            exact Option.noConfusion h
          · intro h
            rw [hms1i] at h
            exact absurd h (by omega)
        have hadvance : MoreSpec ms (mergedLoopF f true ms1) := by
          rcases f with _ | f2
          · exfalso
            omega
          rw [mergedLoopF_succ_true]
          set ms2 : MergedStreams := { ms1 with i := ms1.i + 1 } with hms2
          have hms2streams : ms2.streams = ms1.streams := rfl
          have hmap2 : ms2.streams.map remOf = ms.streams.map remOf := by
            rw [hms2streams]
            exact hmap1
          have hlen2 : ms2.streams.length = ms.streams.length := by
            rw [hms2streams]
            exact hlen1'
          have hstr2 : ∀ t ∈ ms2.streams, StreamInv t := by
            rw [hms2streams]
            exact hstr1
          by_cases hend : ms1.i + 1 = (ms1.streams.length : Int)
          · rw [if_pos hend]
            obtain ⟨dMap2, dInv2, dLen2, dFalse2, dTrue2⟩ := determineNewKey_spec hstr2
            have hlenD2 : ms2.determineNewKey.2.streams.length ≠ 1 := by
              rw [dLen2, hlen2]
              exact hlen1
            by_cases hok : ms2.determineNewKey.1 = true
            · rw [if_pos hok]
              have hsel := dnk_true_selok hstr2 hlenD2 hok
              have hfin' : ((ms2.determineNewKey.2).streamAt
                  (ms2.determineNewKey.2).i.toNat).finished = false := by
                refine finished_false_of_buffer ?_ hsel.buf
                refine dInv2 _ (streamAt_mem ?_)
                have h1 := hsel.ipos
                have h2 := hsel.ilt
                omega
              obtain ⟨ck, hck', hi0', hilt', hbuf', hkey', hlow'⟩ := dTrue2 hok
              rcases f2 with _ | g
              · exfalso
                omega
              have hstep := mergedLoopF_selected g hlenD2 hck' hi0' hbuf' hfin' hkey'
              rw [hstep]
              refine ⟨?_, ?_, fun _ => hsel, ?_⟩
              · rw [dMap2]
                exact hmap2
              · rw [dLen2]
                exact hlen2
              · intro h
                exact absurd h (by simp)
            · have hok' : ms2.determineNewKey.1 = false := by
                cases h : ms2.determineNewKey.1
                · rfl
                · exact absurd h hok
              rw [if_neg hok]
              obtain ⟨hInvF, hremF⟩ := dnk_false_inv hstr2 hlenD2 hok'
              refine ⟨?_, ?_, ?_, ?_⟩
              · rw [dMap2]
                exact hmap2
              · rw [dLen2]
                exact hlen2
              · intro h
                exact absurd h (by simp)
              · intro _
                exact ⟨hInvF, hremF⟩
          · rw [if_neg hend]
            have hms2i : ms2.i = ms.i + 1 := by
              rw [hms2]
              simp [hms1i]
            have hiltInt : ms.i + 1 < (ms.streams.length : Int) := by
              rw [hms1i, hlen1'] at hend
              omega
            have hInv2 : MergedInv ms2 := by
              refine ⟨hstr2, ?_, ?_, ?_, ?_⟩
              · intro h1
                rw [hlen2] at h1
                exact absurd h1 hlen1
              · intro ck2 hck2
                rw [show ms2.currentKey = ms.currentKey from rfl, hck] at hck2
                cases hck2
                refine ⟨by rw [hms2i]; omega, by rw [hms2i, hlen2]; exact hiltInt, ?_⟩
                intro k hk
                rw [allRemKeys_congr hmap2] at hk
                exact hlow k hk
              · intro h
                rw [show ms2.currentKey = ms.currentKey from rfl, hck] at h
                exact Option.noConfusion h
              · intro h
                rw [hms2i] at h
                exact absurd h (by omega)
            obtain ⟨r1, r2, r3, r4⟩ := ih f2 (by omega) ms2 hInv2
              (by rw [hms2i, hlen2]; omega)
            refine ⟨?_, ?_, r3, ?_⟩
            · rw [r1]
              exact hmap2
            · rw [r2]
              exact hlen2
            · intro h
              exact r4 h
        by_cases hb1 : (ms.streamAt ms.i.toNat).more.1 = true
        · rw [if_pos hb1]
          by_cases hke : keyEqual s1.key m = true
          · rw [if_pos hke]
            have hkeym : s1.key = m := of_decide_eq_true hke
            have hat1 : ms1.streamAt ms1.i.toNat = s1 := by
              rw [hms1i, hms1]
              exact streamAt_set _ hjlt
            have hkey1 : ms1.key = m := by
              rw [MergedStreams.key, if_neg (by rw [hlen1']; exact hlen1), hms1ck, hck]
              rfl
            refine ⟨hmap1, hlen1', ?_, ?_⟩
            · intro _
              show SelOK ms1
              refine ⟨hInv1, by rw [hms1i]; exact hi0,
                by rw [hms1i, hlen1']; exact hilt, ?_, ?_, ?_⟩
              · rw [hat1]
                exact hBuf hb1
              · rw [hat1, hkey1]
                exact hkeym
              · rw [hkey1]
                intro k hk
                rw [allRemKeys_congr hmap1] at hk
                exact hlow k hk
            · intro h
              exact absurd h (by simp)
          · rw [if_neg hke]
            exact hadvance
        · rw [if_neg hb1]
          exact hadvance

theorem mergedMore_spec {ms : MergedStreams} (hInv : MergedInv ms) :
    MoreSpec ms ms.more :=
  mergedLoopF_more_spec (2 * ms.streams.length + 4) ms hInv (by omega)

theorem list_map_set {α β : Type} (f : α → β) (l : List α) (n : Nat) (a : α) :
    (l.set n a).map f = (l.map f).set n (f a) := by
  induction l generalizing n with
  | nil => rfl
  | cons x xs ih =>
    cases n with
    | zero => rfl
    | succ n => simp [List.set, ih]

theorem list_get?_map {α β : Type} (f : α → β) (l : List α) (n : Nat) :
    (l.map f).get? n = (l.get? n).map f := by
  induction l generalizing n with
  | nil => rfl
  | cons x xs ih =>
    cases n with
    | zero => rfl
    | succ n => simp [ih n]

theorem mergedNext_spec {ms : MergedStreams} (h : SelOK ms) :
    MergedInv (ms.next).2 ∧
    (ms.next).2.streams.length = ms.streams.length ∧
    remOf (ms.streamAt ms.i.toNat) =
      (ms.key, (ms.next).1) :: remOf ((ms.next).2.streamAt ms.i.toNat) ∧
    (ms.streams.map remOf).get? ms.i.toNat =
      some ((ms.key, (ms.next).1) :: remOf ((ms.next).2.streamAt ms.i.toNat)) ∧
    (ms.next).2.streams.map remOf =
      (ms.streams.map remOf).set ms.i.toNat (remOf ((ms.next).2.streamAt ms.i.toNat)) ∧
    totalRem (ms.next).2 + 1 = totalRem ms ∧
    (∀ k ∈ allRemKeys (ms.next).2, k ∈ allRemKeys ms) ∧
    (ms.next).2.i = ms.i ∧ (ms.next).2.currentKey = ms.currentKey := by
  have hjlt : ms.i.toNat < ms.streams.length := by
    have h1 := h.ipos
    have h2 := h.ilt
    omega
  have hmem := streamAt_mem hjlt
  have hSI := h.inv.streams _ hmem
  obtain ⟨hI2, hremEq, hpeek, _, _, _, hfin⟩ := streamNext_spec hSI h.buf
  have hn2 : (ms.next).2 = ms.setStreamAt ms.i.toNat ((ms.streamAt ms.i.toNat).next).2 := rfl
  have hat : (ms.next).2.streamAt ms.i.toNat = ((ms.streamAt ms.i.toNat).next).2 := by
    rw [hn2]
    exact streamAt_set _ hjlt
  have hkeyc : (ms.streamAt ms.i.toNat).currentKey = ms.key := h.keyeq
  have hremEq' : remOf (ms.streamAt ms.i.toNat) =
      (ms.key, (ms.next).1) :: remOf ((ms.next).2.streamAt ms.i.toNat) := by
    rw [hat]
    rw [← hkeyc]
    exact hremEq
  have hget : (ms.streams.map remOf).get? ms.i.toNat =
      some ((ms.key, (ms.next).1) :: remOf ((ms.next).2.streamAt ms.i.toNat)) := by
    rw [list_get?_map, list_get?_of_lt hjlt]
    show some (remOf (ms.streamAt ms.i.toNat)) = _
    exact congrArg some hremEq'
  have hset : (ms.next).2.streams.map remOf =
      (ms.streams.map remOf).set ms.i.toNat (remOf ((ms.next).2.streamAt ms.i.toNat)) := by
    rw [hn2, streamAt_set ((ms.streamAt ms.i.toNat).next).2 hjlt]
    unfold MergedStreams.setStreamAt
    rw [list_map_set]
  have hsub : ∀ k ∈ allRemKeys (ms.next).2, k ∈ allRemKeys ms := by
    intro k hk
    obtain ⟨t, ht, hkt⟩ := mem_allRemKeys.mp hk
    rw [hn2] at ht
    rcases List.mem_or_eq_of_mem_set ht with ht | rfl
    · exact mem_allRemKeys.mpr ⟨t, ht, hkt⟩
    · refine mem_allRemKeys.mpr ⟨ms.streamAt ms.i.toNat, hmem, ?_⟩
      unfold remKeys
      rw [hremEq', hat]
      simp only [List.map_cons]
      exact List.mem_cons_of_mem _ hkt
  refine ⟨?_, ?_, hremEq', hget, hset, ?_, hsub, rfl, rfl⟩
  · refine ⟨?_, ?_, ?_, ?_, ?_⟩
    · intro t ht
      rw [hn2] at ht
      rcases List.mem_or_eq_of_mem_set ht with ht | rfl
      · exact h.inv.streams t ht
      · exact hI2
    · intro hl1
      rw [hn2] at hl1
      unfold MergedStreams.setStreamAt at hl1
      simp only [List.length_set] at hl1
      have := h.inv.sing hl1
      rw [hn2]
      exact this
    · intro ck hck
      rw [show (ms.next).2.currentKey = ms.currentKey from rfl] at hck
      obtain ⟨h1, h2, _⟩ := h.inv.ckey ck hck
      refine ⟨by rw [show (ms.next).2.i = ms.i from rfl]; exact h1, ?_, ?_⟩
      · rw [show (ms.next).2.i = ms.i from rfl, hn2]
        unfold MergedStreams.setStreamAt
        simp only [List.length_set]
        exact h2
      · intro k hk
        exact (h.inv.ckey ck hck).2.2 k (hsub k hk)
    · intro _
      exact Or.inl (show (0 : Int) ≤ ms.i from h.ipos)
    · intro hneg
      exact absurd (show ms.i < 0 from hneg) (by have := h.ipos; omega)
  · rw [hn2]
    unfold MergedStreams.setStreamAt
    simp
  · have hlen : ((ms.key, (ms.next).1) ::
        remOf ((ms.next).2.streamAt ms.i.toNat)).length =
        (remOf ((ms.next).2.streamAt ms.i.toNat)).length + 1 := by
      simp
    unfold totalRem
    rw [hset]
    exact sum_len_set hget hlen

theorem drainF_succ (n : Nat) (ms : MergedStreams) :
    drainF (n + 1) ms =
      if (ms.more).1 = true then
        (((ms.more).2.key, ((ms.more).2.next).1) :: (drainF n ((ms.more).2.next).2).1,
          (drainF n ((ms.more).2.next).2).2)
      else ([], (ms.more).2) := rfl

theorem drainF_spec :
    ∀ (n : Nat) (ms : MergedStreams), MergedInv ms → totalRem ms < n →
    KMerge (ms.streams.map remOf) (drainF n ms).1 ∧
    List.Pairwise (fun a b => keyLess b.1 a.1 = false) (drainF n ms).1 ∧
    (∀ klow, (∀ k ∈ allRemKeys ms, keyLess k klow = false) →
      ∀ p ∈ (drainF n ms).1, keyLess p.1 klow = false) := by
  intro n
  induction n with
  | zero =>
    intro ms _ hn
    omega
  | succ n ih =>
    intro ms hInv hn
    obtain ⟨mMap, mLen, mTrue, mFalse⟩ := mergedMore_spec hInv
    rw [drainF_succ]
    by_cases hb : (ms.more).1 = true
    · rw [if_pos hb]
      have hsel := mTrue hb
      obtain ⟨hInv2, hLen2, hRemEq, hGet, hSet, hTot, hSub, _, _⟩ := mergedNext_spec hsel
      have hjlt : (ms.more).2.i.toNat < (ms.more).2.streams.length := by
        have h1 := hsel.ipos
        have h2 := hsel.ilt
        omega
      have htot1 : totalRem (ms.more).2 = totalRem ms := totalRem_congr mMap
      have hlt2 : totalRem ((ms.more).2.next).2 < n := by omega
      obtain ⟨ihK, ihP, ihB⟩ := ih ((ms.more).2.next).2 hInv2 hlt2
      have hkeymem : (ms.more).2.key ∈ allRemKeys (ms.more).2 := by
        refine mem_allRemKeys.mpr ⟨(ms.more).2.streamAt (ms.more).2.i.toNat,
          streamAt_mem hjlt, ?_⟩
        unfold remKeys
        rw [hRemEq]
        simp
      refine ⟨?_, ?_, ?_⟩
      · have hGet' : (List.map remOf ms.streams).get? (ms.more).2.i.toNat =
            some (((ms.more).2.key, ((ms.more).2.next).1) ::
              remOf (((ms.more).2.next).2.streamAt (ms.more).2.i.toNat)) := by
          rw [← mMap]
          exact hGet
        have hK2 : KMerge ((List.map remOf ms.streams).set (ms.more).2.i.toNat
            (remOf (((ms.more).2.next).2.streamAt (ms.more).2.i.toNat)))
            (drainF n ((ms.more).2.next).2).1 := by
          rw [← mMap, ← hSet]
          exact ihK
        exact KMerge.step hGet' hK2
      · rw [List.pairwise_cons]
        refine ⟨?_, ihP⟩
        intro p hp
        refine ihB (ms.more).2.key ?_ p hp
        intro k hk
        exact hsel.low k (hSub k hk)
      · intro klow hbound p hp
        rcases List.mem_cons.mp hp with rfl | hp
        · refine hbound _ ?_
          rw [← allRemKeys_congr mMap]
          exact hkeymem
        · refine ihB klow ?_ p hp
          intro k hk
          exact hbound k (by rw [← allRemKeys_congr mMap]; exact hSub k hk)
    · rw [if_neg hb]
      have hb' : (ms.more).1 = false := by
        cases hh : (ms.more).1
        · rfl
        · exact absurd hh hb
      obtain ⟨_, hall⟩ := mFalse hb'
      refine ⟨KMerge.nil ?_, List.Pairwise.nil, ?_⟩
      · intro l hl
        rw [← mMap] at hl
        obtain ⟨t, ht, rfl⟩ := List.mem_map.mp hl
        exact hall t ht
      · intro _ _ p hp
        exact absurd hp (List.not_mem_nil p)

/-! ### Concrete inputs for counterexamples and witnesses -/

/-- Concrete read specification: ungrouped (default mode), no aggregate. -/
theorem streamDrainF_succ (n : Nat) (s : StreamState) :
    streamDrainF (n + 1) s =
      if (s.more).1 = true then
        (((s.more).2.key, ((s.more).2.next).1) :: (streamDrainF n ((s.more).2.next).2).1,
          (streamDrainF n ((s.more).2.next).2).2)
      else ([], (s.more).2) := rfl

/-- Claim C1 (amended): for per-connection frame streams that each begin with a
key-bearing frame, carry keys non-decreasingly, and — the amendment — are
delivered in non-empty batches, the merge cursor emits exactly the union of all
frames, preserving each connection's internal order (`KMerge`), with the
observed key sequence free of inversions (no frame of a later key before one of
an earlier key). -/
theorem claim_c1_merge_order (readSpec : ReadSpec) (bnds : Bounds) (grp : Bool)
    (contents : List (List (List Frame)))
    (hbatch : ∀ bs ∈ contents, ∀ b ∈ bs, b ≠ [])
    (_hkeys : ∀ bs ∈ contents, ∀ f, bs.flatten.head? = some f →
      (frameKey readSpec bnds grp f).isSome)
    (hchain : ∀ bs ∈ contents,
      chainLE ((withKeys readSpec bnds grp default bs.flatten).map Prod.fst)) :
    KMerge (contents.map (fun bs => withKeys readSpec bnds grp default bs.flatten))
      (drainF (totalRem (initMerged readSpec bnds grp contents) + 1)
        (initMerged readSpec bnds grp contents)).1 ∧
    List.Pairwise (fun a b => keyLess b.1 a.1 = false)
      (drainF (totalRem (initMerged readSpec bnds grp contents) + 1)
        (initMerged readSpec bnds grp contents)).1 := by
  have hmap0 : (initMerged readSpec bnds grp contents).streams.map remOf =
      contents.map (fun bs => withKeys readSpec bnds grp default bs.flatten) := by
    show (contents.map (initStream readSpec bnds grp)).map remOf = _
    rw [List.map_map]
    rfl
  have hInv : MergedInv (initMerged readSpec bnds grp contents) := by
    refine ⟨?_, fun _ => rfl, ?_, ?_, ?_⟩
    · intro s hs
      obtain ⟨bs, hbs, rfl⟩ := List.mem_map.mp hs
      refine ⟨hbatch bs hbs, ?_, ?_, ?_⟩
      · intro h
        exact absurd h (by simp [initStream])
      · intro f hf
        simp [initStream] at hf
      · exact hchain bs hbs
    · intro ck hck
      exact Option.noConfusion hck
    · intro _
      exact Or.inl (by norm_num [initMerged])
    · intro h
      norm_num [initMerged] at h
  obtain ⟨hK, hP, _⟩ := drainF_spec (totalRem (initMerged readSpec bnds grp contents) + 1)
    (initMerged readSpec bnds grp contents) hInv (by omega)
  rw [hmap0] at hK
  exact ⟨hK, hP⟩

/-- Claim C1, counterexample to the claim as stated: per-connection frame
streams that are individually sorted by group key (and begin with key-bearing
frames), but whose transport delivers an empty batch mid-stream, make the merge
emit the (t=b) key strictly before the unconsumed (t=a) key. -/
theorem claim_c1_counterexample :
    (∀ bs ∈ cexContents, ∀ f, bs.flatten.head? = some f →
      (frameKey cexSpec cexBounds false f).isSome) ∧
    (∀ bs ∈ cexContents,
      chainLE ((withKeys cexSpec cexBounds false default bs.flatten).map Prod.fst)) ∧
    ¬ List.Pairwise (fun a b => keyLess b.1 a.1 = false)
      (drainF (totalRem (initMerged cexSpec cexBounds false cexContents) + 1)
        (initMerged cexSpec cexBounds false cexContents)).1 := by
  refine ⟨by decide, by decide, by decide⟩

/-- Claim C1, witness: the amended theorem applied to two concrete connections
with non-empty batches. -/
theorem claim_c1_witness :
    ((∀ bs ∈ cexContentsOk, ∀ b ∈ bs, b ≠ []) ∧
     (∀ bs ∈ cexContentsOk, ∀ f, bs.flatten.head? = some f →
       (frameKey cexSpec cexBounds false f).isSome) ∧
     (∀ bs ∈ cexContentsOk,
       chainLE ((withKeys cexSpec cexBounds false default bs.flatten).map Prod.fst))) ∧
    (KMerge (cexContentsOk.map
        (fun bs => withKeys cexSpec cexBounds false default bs.flatten))
      (drainF (totalRem (initMerged cexSpec cexBounds false cexContentsOk) + 1)
        (initMerged cexSpec cexBounds false cexContentsOk)).1 ∧
     List.Pairwise (fun a b => keyLess b.1 a.1 = false)
      (drainF (totalRem (initMerged cexSpec cexBounds false cexContentsOk) + 1)
        (initMerged cexSpec cexBounds false cexContentsOk)).1) :=
  ⟨⟨by decide, by decide, by decide⟩,
    claim_c1_merge_order cexSpec cexBounds false cexContentsOk
      (by decide) (by decide) (by decide)⟩

/-- Claim C2: a merge cursor holding exactly one underlying stream produces,
through its more/key/next operations, exactly the sequence the stream cursor
produces when consumed directly. -/
theorem claim_c2_single_stream : ∀ (n : Nat) (s : StreamState) (ck : Option GroupKey),
    (drainF n { streams := [s], currentKey := ck, i := 0 }).1 =
      (streamDrainF n s).1 := by
  intro n
  induction n with
  | zero =>
    intro s ck
    rfl
  | succ n ih =>
    intro s ck
    have hmore : ({ streams := [s], currentKey := ck, i := 0 } : MergedStreams).more =
        ((s.more).1, { streams := [(s.more).2], currentKey := ck, i := 0 }) := by
      show mergedLoopF (2 * 1 + 4) false _ = _
      rw [show (2 * 1 + 4 : Nat) = 5 + 1 from rfl, mergedLoopF_succ_false]
      simp [MergedStreams.streamAt, MergedStreams.setStreamAt, List.getD]
    rw [drainF_succ, streamDrainF_succ, hmore]
    simp only
    by_cases hb : (s.more).1 = true
    · rw [if_pos hb, if_pos hb]
      have hkey : ({ streams := [(s.more).2], currentKey := ck, i := 0 } :
          MergedStreams).key = (s.more).2.key := by
        rw [MergedStreams.key]
        simp [MergedStreams.streamAt, List.getD]
      have hnext : ({ streams := [(s.more).2], currentKey := ck, i := 0 } :
          MergedStreams).next =
          (((s.more).2.next).1,
            { streams := [((s.more).2.next).2], currentKey := ck, i := 0 }) := by
        unfold MergedStreams.next
        simp [MergedStreams.streamAt, MergedStreams.setStreamAt, List.getD]
      rw [hkey, hnext]
      simp only
      rw [ih]
    · rw [if_neg hb, if_neg hb]

/-! ### The `table` layer: columnar pages built from point frames -/

/-- A Go slice: the visible elements and the capacity of its backing array.
The code under verification never reads an element it has not just written
(every re-slice is immediately followed by a full overwrite of the visible
range), so the hidden region of the backing array is tracked only by its
capacity. -/
theorem readTags_shape {t : Table} {tags : List Tag} {t2 : Table}
    (h : t.readTags tags = some t2) : ∃ tg, t2 = { t with tags := tg } := by
  unfold Table.readTags at h
  split at h
  · split at h
    · next tg _ =>
      exact ⟨tg, by injection h with h2; exact h2.symm⟩
    · exact absurd h (by simp)
  · exact absurd h (by simp)

theorem appendTags_shape {t : Table} {t2 : Table}
    (h : t.appendTags = some t2) : ∃ cb, t2 = { t with colBufs := cb } := by
  unfold Table.appendTags at h
  split at h
  · split at h
    · next cb _ =>
      exact ⟨cb, by injection h with h2; exact h2.symm⟩
    · exact absurd h (by simp)
  · exact absurd h (by simp)

theorem appendBounds_shape {t : Table} {t2 : Table}
    (h : t.appendBounds = some t2) : ∃ cb, t2 = { t with colBufs := cb } := by
  unfold Table.appendBounds at h
  split at h
  · split at h
    · exact absurd h (by simp)
    · next b0 _ =>
      dsimp only [] at h
      split at h
      · exact absurd h (by simp)
      · next b1 _ =>
        exact ⟨_, by injection h with h2; exact h2.symm⟩
  · exact absurd h (by simp)

/-- The fields of a table that no `Points` case of `advance` ever writes. -/
theorem sameFrame_refl (t : Table) : SameFrame t t := ⟨rfl, rfl, rfl, rfl, rfl⟩

theorem boolPointsStep_frame {t1 : Table} {ts : List Int} {vs : List Bool}
    {b : Bool} {t2 : Table} (h : boolPointsStep t1 ts vs = some (b, t2)) :
    SameFrame t1 t2 := by
  unfold boolPointsStep at h
  split at h
  · split at h
    · injection h with h2
      cases h2
      exact ⟨rfl, rfl, rfl, rfl, rfl⟩
    · split at h
      · dsimp only [] at h
        split at h
        · exact absurd h (by simp)
        · split at h
          · exact absurd h (by simp)
          · split at h
            · exact absurd h (by simp)
            · next t4 _ =>
              split at h
              · exact absurd h (by simp)
              · next t5 hb5 =>
                injection h with h2
                cases h2
                obtain ⟨cb4, rfl⟩ := appendTags_shape (by assumption)
                obtain ⟨cb5, rfl⟩ := appendBounds_shape hb5
                exact ⟨rfl, rfl, rfl, rfl, rfl⟩
      · exact absurd h (by simp)
  · exact absurd h (by simp)

theorem intPointsStep_frame {t1 : Table} {ts : List Int} {vs : List Int}
    {b : Bool} {t2 : Table} (h : intPointsStep t1 ts vs = some (b, t2)) :
    SameFrame t1 t2 := by
  unfold intPointsStep at h
  split at h
  · split at h
    · injection h with h2
      cases h2
      exact ⟨rfl, rfl, rfl, rfl, rfl⟩
    · split at h
      · dsimp only [] at h
        split at h
        · exact absurd h (by simp)
        · split at h
          · exact absurd h (by simp)
          · split at h
            · exact absurd h (by simp)
            · next t4 _ =>
              split at h
              · exact absurd h (by simp)
              · next t5 hb5 =>
                injection h with h2
                cases h2
                obtain ⟨cb4, rfl⟩ := appendTags_shape (by assumption)
                obtain ⟨cb5, rfl⟩ := appendBounds_shape hb5
                exact ⟨rfl, rfl, rfl, rfl, rfl⟩
      · exact absurd h (by simp)
  · exact absurd h (by simp)

theorem uintPointsStep_frame {t1 : Table} {ts : List Int} {vs : List Nat}
    {b : Bool} {t2 : Table} (h : uintPointsStep t1 ts vs = some (b, t2)) :
    SameFrame t1 t2 := by
  unfold uintPointsStep at h
  split at h
  · split at h
    · injection h with h2
      cases h2
      exact ⟨rfl, rfl, rfl, rfl, rfl⟩
    · split at h
      · dsimp only [] at h
        split at h
        · exact absurd h (by simp)
        · split at h
          · exact absurd h (by simp)
          · split at h
            · exact absurd h (by simp)
            · next t4 _ =>
              split at h
              · exact absurd h (by simp)
              · next t5 hb5 =>
                injection h with h2
                cases h2
                obtain ⟨cb4, rfl⟩ := appendTags_shape (by assumption)
                obtain ⟨cb5, rfl⟩ := appendBounds_shape hb5
                exact ⟨rfl, rfl, rfl, rfl, rfl⟩
      · exact absurd h (by simp)
  · exact absurd h (by simp)

theorem floatPointsStep_frame {t1 : Table} {ts : List Int} {vs : List Int}
    {b : Bool} {t2 : Table} (h : floatPointsStep t1 ts vs = some (b, t2)) :
    SameFrame t1 t2 := by
  unfold floatPointsStep at h
  split at h
  · split at h
    · injection h with h2
      cases h2
      exact ⟨rfl, rfl, rfl, rfl, rfl⟩
    · split at h
      · dsimp only [] at h
        split at h
        · exact absurd h (by simp)
        · split at h
          · exact absurd h (by simp)
          · split at h
            · exact absurd h (by simp)
            · next t4 _ =>
              split at h
              · exact absurd h (by simp)
              · next t5 hb5 =>
                injection h with h2
                cases h2
                obtain ⟨cb4, rfl⟩ := appendTags_shape (by assumption)
                obtain ⟨cb5, rfl⟩ := appendBounds_shape hb5
                exact ⟨rfl, rfl, rfl, rfl, rfl⟩
      · exact absurd h (by simp)
  · exact absurd h (by simp)

theorem stringPointsStep_frame {t1 : Table} {ts : List Int} {vs : List String}
    {b : Bool} {t2 : Table} (h : stringPointsStep t1 ts vs = some (b, t2)) :
    SameFrame t1 t2 := by
  unfold stringPointsStep at h
  split at h
  · split at h
    · injection h with h2
      cases h2
      exact ⟨rfl, rfl, rfl, rfl, rfl⟩
    · split at h
      · dsimp only [] at h
        split at h
        · exact absurd h (by simp)
        · split at h
          · exact absurd h (by simp)
          · split at h
            · exact absurd h (by simp)
            · next t4 _ =>
              split at h
              · exact absurd h (by simp)
              · next t5 hb5 =>
                injection h with h2
                cases h2
                obtain ⟨cb4, rfl⟩ := appendTags_shape (by assumption)
                obtain ⟨cb5, rfl⟩ := appendBounds_shape hb5
                exact ⟨rfl, rfl, rfl, rfl, rfl⟩
      · exact absurd h (by simp)
  · exact absurd h (by simp)

theorem sameFrame_trans {a b c : Table} (h1 : SameFrame a b) (h2 : SameFrame b c) :
    SameFrame a c :=
  ⟨h2.cols.trans h1.cols, h2.key.trans h1.key, h2.defs.trans h1.defs,
    h2.bounds.trans h1.bounds, h2.readSpec.trans h1.readSpec⟩

/-- `advance` never touches the table's schema, key, defaults, bounds or read
specification, in any number of loop rounds. -/
theorem advanceF_frame : ∀ {n : Nat} {t : Table} {b : Bool} {t2 : Table},
    advanceF n t = some (b, t2) → SameFrame t t2 := by
  intro n
  induction n with
  | zero =>
    intro t b t2 h
    exact absurd h (by simp [advanceF])
  | succ n ih =>
    intro t b t2 h
    unfold advanceF at h
    dsimp only [] at h
    split at h
    · injection h with h2
      cases h2
      exact ⟨rfl, rfl, rfl, rfl, rfl⟩
    · split at h
      · injection h with h2
        cases h2
        exact ⟨rfl, rfl, rfl, rfl, rfl⟩
      · split at h
        · injection h with h2
          cases h2
          exact ⟨rfl, rfl, rfl, rfl, rfl⟩
        · split at h
          · exact absurd h (by simp)
          · next t2' hrt =>
            obtain ⟨tg, rfl⟩ := readTags_shape hrt
            split at h
            · injection h with h2
              cases h2
              exact ⟨rfl, rfl, rfl, rfl, rfl⟩
            · refine sameFrame_trans ?_ (ih h)
              exact ⟨rfl, rfl, rfl, rfl, rfl⟩
      · refine sameFrame_trans ?_ (boolPointsStep_frame h)
        exact ⟨rfl, rfl, rfl, rfl, rfl⟩
      · refine sameFrame_trans ?_ (intPointsStep_frame h)
        exact ⟨rfl, rfl, rfl, rfl, rfl⟩
      · refine sameFrame_trans ?_ (uintPointsStep_frame h)
        exact ⟨rfl, rfl, rfl, rfl, rfl⟩
      · refine sameFrame_trans ?_ (floatPointsStep_frame h)
        exact ⟨rfl, rfl, rfl, rfl, rfl⟩
      · refine sameFrame_trans ?_ (stringPointsStep_frame h)
        exact ⟨rfl, rfl, rfl, rfl, rfl⟩

/-! ### The fixed column layout (claim C3 support) -/

theorem list_take_set_succ {α : Type} (l : List α) (n : Nat) (a : α)
    (h : n < l.length) : (l.set n a).take (n + 1) = l.take n ++ [a] := by
  induction l generalizing n with
  | nil => simp at h
  | cons x xs ih =>
    cases n with
    | zero => simp
    | succ n =>
      simp only [List.set, List.take, List.cons_append]
      rw [ih n (by simpa using h)]

theorem enumFoldCols_spec {β : Type} (f : β → ColMeta) :
    ∀ (ts : List β) (k : Nat) (c : List ColMeta) (d : List (Option String)),
    c.length = 4 + k + ts.length → d.length = 4 + k + ts.length →
    List.foldl (tagColStep f) (c, d) (ts.enumFrom k) =
      (c.take (4 + k) ++ ts.map f,
        d.take (4 + k) ++ ts.map (fun _ => some "")) := by
  intro ts
  induction ts with
  | nil =>
    intro k c d h1 h2
    simp only [List.length_nil] at h1 h2
    simp only [List.enumFrom, List.foldl_nil, List.map_nil, List.append_nil]
    rw [List.take_of_length_le (by omega), List.take_of_length_le (by omega)]
  | cons t ts ih =>
    intro k c d h1 h2
    simp only [List.length_cons] at h1 h2
    simp only [List.enumFrom, List.foldl_cons]
    rw [show tagColStep f (c, d) (k, t) =
      (c.set (4 + k) (f t), d.set (4 + k) (some "")) from rfl]
    rw [ih (k + 1) _ _ (by simp only [List.length_set]; omega)
      (by simp only [List.length_set]; omega)]
    rw [show 4 + (k + 1) = (4 + k) + 1 from rfl]
    rw [list_take_set_succ _ _ _ (by omega), list_take_set_succ _ _ _ (by omega)]
    simp

theorem determineTableColsForSeries_eq (tags : List Tag) (typ : DataType) :
    determineTableColsForSeries tags typ =
      ([startColMeta, stopColMeta, timeColMeta, valueColMeta typ] ++
        tags.map (fun tg => { label := tg.key, typ := .TString }),
       [none, none, none, none] ++ tags.map (fun _ => (some "" : Option String))) := by
  unfold determineTableColsForSeries
  dsimp only []
  rw [show (tags.enum : List (Nat × Tag)) = tags.enumFrom 0 from rfl]
  rw [enumFoldCols_spec _ tags 0 _ _ (by simp) (by simp)]
  rw [show (4 + 0 : Nat) = 4 from rfl]
  rw [Nat.add_comm 4 tags.length]
  rfl

theorem determineTableColsForGroup_eq (tagKeys : List String) (typ : DataType) :
    determineTableColsForGroup tagKeys typ =
      ([startColMeta, stopColMeta, timeColMeta, valueColMeta typ] ++
        tagKeys.map (fun k => { label := k, typ := .TString }),
       [none, none, none, none] ++ tagKeys.map (fun _ => (some "" : Option String))) := by
  unfold determineTableColsForGroup
  dsimp only []
  rw [show (tagKeys.enum : List (Nat × String)) = tagKeys.enumFrom 0 from rfl]
  rw [enumFoldCols_spec _ tagKeys 0 _ _ (by simp) (by simp)]
  rw [show (4 + 0 : Nat) = 4 from rfl]
  rw [Nat.add_comm 4 tagKeys.length]
  rfl

/-! ### Concrete tables and streams for counterexamples and witnesses -/

theorem claim_c3_schema_stability (tags : List Tag) (tagKeys : List String)
    (typ : DataType) (n : Nat) (t : Table) :
    (determineTableColsForSeries tags typ).1 =
      [startColMeta, stopColMeta, timeColMeta, valueColMeta typ] ++
        tags.map (fun tg => { label := tg.key, typ := .TString }) ∧
    (determineTableColsForSeries tags typ).1.length = 4 + tags.length ∧
    (determineTableColsForGroup tagKeys typ).1 =
      [startColMeta, stopColMeta, timeColMeta, valueColMeta typ] ++
        tagKeys.map (fun k => { label := k, typ := .TString }) ∧
    (determineTableColsForGroup tagKeys typ).1.length = 4 + tagKeys.length ∧
    (∀ b t2, advanceF n t = some (b, t2) → t2.cols = t.cols) := by
  refine ⟨?_, ?_, ?_, ?_, ?_⟩
  · rw [determineTableColsForSeries_eq]
  · rw [determineTableColsForSeries_eq]
    simp only [List.length_append, List.length_cons, List.length_nil, List.length_map]
  · rw [determineTableColsForGroup_eq]
  · rw [determineTableColsForGroup_eq]
    simp only [List.length_append, List.length_cons, List.length_nil, List.length_map]
  · intro b t2 h
    exact (advanceF_frame h).cols

/-- C4: a table whose value column is frozen at float, positioned over an
integer points frame (sharing the table's key), records the type-mismatch
error — readable through the `Err()` accessor field — and `advance` returns
false at once, for any fuel; the `Do` page loop therefore ends with no further
pages. -/
theorem claim_c4_type_conflict (t : Table) (ts vs : List Int)
    (hmore : (t.ms.more).1 = true)
    (hpeek : (t.ms.more).2.peek = Frame.intPoints ts vs)
    (hlen : valueColIdx < t.cols.length)
    (hval : (t.cols.getD valueColIdx default).typ = DataType.TFloat)
    (_hkey : keyEqual ((t.ms.more).2.key) t.key = true) :
    ∃ t2, (∀ k, advanceF (k + 1) t = some (false, t2)) ∧
      t2.err = some (typeChangedErr DataType.TFloat DataType.TInt) ∧
      (∀ m, tableLoopF (m + 1) t = some ([], t2)) := by
  have hadv : ∀ k, advanceF (k + 1) t = some (false,
      { t with ms := (t.ms.more).2,
               timeBuf := t.timeBuf.reset, boolBuf := t.boolBuf.reset,
               intBuf := t.intBuf.reset, uintBuf := t.uintBuf.reset,
               stringBuf := t.stringBuf.reset, floatBuf := t.floatBuf.reset,
               err := some (typeChangedErr DataType.TFloat DataType.TInt) }) := by
    intro k
    unfold advanceF
    dsimp only []
    rw [hmore]
    rw [if_neg (by simp)]
    rw [hpeek]
    dsimp only []
    unfold intPointsStep
    rw [if_pos hlen]
    rw [if_pos (by rw [hval]; simp)]
    rw [hval]
  refine ⟨_, hadv, rfl, ?_⟩
  intro m
  unfold tableLoopF
  rw [show totalRem t.ms + 2 = (totalRem t.ms + 1) + 1 from rfl]
  rw [hadv (totalRem t.ms + 1)]

/-- C4, witness: a concrete float-column table whose stream starts with an
integer points frame. -/
theorem claim_c4_witness :
    ((cexFloatTable.ms.more).1 = true ∧
     (cexFloatTable.ms.more).2.peek = Frame.intPoints [9] [9] ∧
     valueColIdx < cexFloatTable.cols.length ∧
     (cexFloatTable.cols.getD valueColIdx default).typ = DataType.TFloat ∧
     keyEqual ((cexFloatTable.ms.more).2.key) cexFloatTable.key = true) ∧
    (∃ t2, (∀ k, advanceF (k + 1) cexFloatTable = some (false, t2)) ∧
      t2.err = some (typeChangedErr DataType.TFloat DataType.TInt) ∧
      (∀ m, tableLoopF (m + 1) cexFloatTable = some ([], t2))) :=
  ⟨⟨by decide, by decide, by decide, by decide, by decide⟩,
    claim_c4_type_conflict cexFloatTable [9] [9]
      (by decide) (by decide) (by decide) (by decide) (by decide)⟩

/-- C5 (amended): with an empty local buffer and the cursor not finished,
`more()` performs exactly one blocking receive (`pending` shrinks by exactly
its head).  End-of-stream sets `finished` and returns false, and a later
`more()` on the finished cursor receives nothing further.  A received batch
with ZERO frames, however, returns false while leaving `finished` unset —
the amendment: the source only sets `finished` on a receive error, so the
next `more()` call performs another receive. -/
theorem claim_c5_stream_more (s : StreamState)
    (hfin : s.finished = false) (hbuf : s.buffer = []) :
    (s.pending = [] →
      s.more = (false, { s with finished := true }) ∧
      ({ s with finished := true } : StreamState).more =
        (false, { s with finished := true })) ∧
    (∀ rest, s.pending = [] :: rest →
      (s.more).1 = false ∧ (s.more).2.finished = false ∧
      (s.more).2.pending = rest ∧ (s.more).2.buffer = []) ∧
    (∀ batch rest, s.pending = batch :: rest → batch ≠ [] →
      (s.more).1 = true ∧ (s.more).2.finished = false ∧
      (s.more).2.pending = rest ∧ (s.more).2.buffer = batch) := by
  have hm : ∀ s1 : StreamState, s1.finished = false → s1.buffer = [] →
      s1.more = (match s1.pending with
        | [] => (false, { s1 with finished := true })
        | batch :: rest =>
          let s2 := { s1 with buffer := batch, pending := rest }
          if batch = [] then (false, s2) else (true, s2.computeKey)) := by
    intro s1 h1 h2
    unfold StreamState.more
    rw [if_neg (by rw [h1]; simp), if_neg (by rw [h2]; simp)]
  refine ⟨?_, ?_, ?_⟩
  · intro hp
    refine ⟨by rw [hm s hfin hbuf, hp], ?_⟩
    show StreamState.more _ = _
    unfold StreamState.more
    rw [if_pos rfl]
  · intro rest hp
    rw [hm s hfin hbuf, hp]
    dsimp only []
    rw [if_pos rfl]
    exact ⟨rfl, hfin, rfl, rfl⟩
  · intro batch rest hp hne
    rw [hm s hfin hbuf, hp]
    dsimp only []
    rw [if_neg hne]
    obtain ⟨hb, hp2, _, _, _, hf⟩ :=
      computeKey_fields { s with buffer := batch, pending := rest }
    exact ⟨rfl, hf.trans hfin, hp2, hb⟩

/-- C5, counterexample to the claim as stated: a received batch with zero
frames makes `more()` return false but does NOT set `finished` — a second
`more()` call performs another receive (observable here: it consumes the next
pending batch and returns true). -/
theorem claim_c5_counterexample :
    cexStream.finished = false ∧ cexStream.buffer = [] ∧
    (cexStream.more).1 = false ∧
    (cexStream.more).2.finished = false ∧
    ((cexStream.more).2.more).1 = true ∧
    ((cexStream.more).2.more).2.pending = [] := by
  refine ⟨rfl, rfl, by decide, by decide, by decide, by decide⟩

/-- C5, witness: the amended receive semantics at the concrete cursor. -/
theorem claim_c5_witness :
    (cexStream.finished = false ∧ cexStream.buffer = []) ∧
    ((cexStream.pending = [] →
      cexStream.more = (false, { cexStream with finished := true }) ∧
      ({ cexStream with finished := true } : StreamState).more =
        (false, { cexStream with finished := true })) ∧
    (∀ rest, cexStream.pending = [] :: rest →
      (cexStream.more).1 = false ∧ (cexStream.more).2.finished = false ∧
      (cexStream.more).2.pending = rest ∧ (cexStream.more).2.buffer = []) ∧
    (∀ batch rest, cexStream.pending = batch :: rest → batch ≠ [] →
      (cexStream.more).1 = true ∧ (cexStream.more).2.finished = false ∧
      (cexStream.more).2.pending = rest ∧ (cexStream.more).2.buffer = batch)) :=
  ⟨⟨rfl, rfl⟩, claim_c5_stream_more cexStream rfl rfl⟩

/-- C6: the claim does not hold for the integer buffers — `advance` grows
`intBuf` after testing `cap(uintBuf)` and vice versa, so on an integer table
(where `uintBuf` stays at capacity 0) a 1-point frame following a 5-point
frame reallocates `intBuf` down to capacity 1 even though 1 ≤ 5 = its current
capacity; the time buffer, whose own capacity is tested, is correctly re-used
and keeps capacity 5.  The unsigned table shows the mirrored swap. -/
theorem claim_c6_swapped_capacity_checks :
    ((advanceF 2 cexIntTable).map
      (fun r => (r.1, r.2.timeBuf.cap, r.2.intBuf.cap, r.2.uintBuf.cap)) =
        some (true, 5, 5, 0)) ∧
    (((advanceF 2 cexIntTable).bind (fun r => advanceF 2 r.2)).map
      (fun r => (r.1, r.2.timeBuf.cap, r.2.intBuf.cap)) = some (true, 5, 1)) ∧
    (((advanceF 2 cexUintTable).bind (fun r => advanceF 2 r.2)).map
      (fun r => (r.1, r.2.timeBuf.cap, r.2.uintBuf.cap)) = some (true, 5, 1)) := by
  refine ⟨by decide, by decide, by decide⟩

/-- C8: an empty aggregate-method string leaves the wire request without an
aggregate, and an unrecognized non-empty name makes the whole setup fail with
that error — in the model, an `error` from `tableIteratorSetup` means no
`StreamState` was ever constructed, i.e. no RPC was issued. -/
theorem claim_c8_aggregate_config (readSpec : ReadSpec) (bounds : Bounds)
    (conns : List Connection) :
    (readSpec.aggregateMethod = "" → ∃ req streams,
      tableIteratorSetup readSpec bounds conns = .ok (req, streams) ∧
      req.aggregate = none) ∧
    (∀ e, determineAggregateMethod readSpec.aggregateMethod = .error e →
      tableIteratorSetup readSpec bounds conns = .error e) := by
  constructor
  · intro hagg
    unfold tableIteratorSetup buildReadRequest
    rw [hagg]
    unfold determineAggregateMethod
    rw [if_pos rfl]
    dsimp only []
    rw [if_neg (by simp [aggregateTypeNone])]
    exact ⟨_, _, rfl, rfl⟩
  · intro e herr
    unfold tableIteratorSetup buildReadRequest
    rw [herr]

/-- C8, witness: the two concrete configurations. -/
theorem claim_c8_witness :
    (({ cexSpec with aggregateMethod := "" } : ReadSpec).aggregateMethod = "" ∧
      (∃ req streams,
        tableIteratorSetup { cexSpec with aggregateMethod := "" } cexBounds [] =
          .ok (req, streams) ∧ req.aggregate = none)) ∧
    (determineAggregateMethod
        ({ cexSpec with aggregateMethod := "bogus" } : ReadSpec).aggregateMethod =
      .error ("unknown aggregate type " ++ "bogus") ∧
      tableIteratorSetup { cexSpec with aggregateMethod := "bogus" } cexBounds [] =
        .error ("unknown aggregate type " ++ "bogus")) :=
  ⟨⟨rfl, (claim_c8_aggregate_config { cexSpec with aggregateMethod := "" }
      cexBounds []).1 rfl⟩,
    ⟨by rfl, (claim_c8_aggregate_config { cexSpec with aggregateMethod := "bogus" }
      cexBounds []).2 _ (by rfl)⟩⟩

/-- C9: `groupKeyForSeries` is NOT total — in Except mode a requested group
key greater than every tag key makes `indexOfTag` return `len(s.Tags)` and the
source immediately reads `s.Tags[i]` at that out-of-range index (the `none` of
the model); here one tag `a=v` and the absent key `z`. -/
theorem claim_c9_except_mode_oob :
    indexOfTag [{ key := "a", value := "v" }] "z" =
      ([{ key := "a", value := "v" }] : List Tag).length ∧
    groupKeyForSeries [{ key := "a", value := "v" }]
      { cexSpec with groupMode := .modeExcept, groupKeys := ["z"] } cexBounds =
        none := by
  refine ⟨by decide, by decide⟩

/-- The group key the model's By-mode produces for a series tagged `b=v` when
the caller asked to group by the absent key `a`: the bound columns plus a
column labelled with the OTHER tag's key. -/
theorem claim_c10_by_mode_wrong_column :
    ("a" ∉ ([{ key := "b", value := "v" }] : List Tag).map Tag.key) ∧
    groupKeyForSeries [{ key := "b", value := "v" }]
      { cexSpec with groupMode := .modeBy, groupKeys := ["a"] } cexBounds =
        some cexWrongByKey ∧
    { label := "b", typ := DataType.TString } ∈ cexWrongByKey.cols ∧
    ∀ c ∈ cexWrongByKey.cols, c.label ≠ "a" := by
  refine ⟨by decide, by decide, by decide, by decide⟩

/-! ### Claim C7: PointsLimit = -1 -/

theorem streamPeek_next (s : StreamState) : s.peek = (s.next).1 := by
  unfold StreamState.peek StreamState.next
  cases s.buffer <;> rfl

theorem mergedPeek_next (ms : MergedStreams) : ms.peek = (ms.next).1 := by
  unfold MergedStreams.peek MergedStreams.next
  exact streamPeek_next _

/-- Every frame still unconsumed anywhere in the merge cursor is a series
announcement (the stream shape the storage nodes produce under the no-points
hint). -/
theorem allSeriesRem_of_mapEq {ms1 ms2 : MergedStreams}
    (hmap : ms2.streams.map remOf = ms1.streams.map remOf)
    (h : allSeriesRem ms1) : allSeriesRem ms2 := by
  intro s hs p hp
  have hmem : remOf s ∈ ms2.streams.map remOf := List.mem_map.mpr ⟨s, hs, rfl⟩
  rw [hmap] at hmem
  obtain ⟨s1, hs1, heq⟩ := List.mem_map.mp hmem
  exact h s1 hs1 p (by rw [heq]; exact hp)

/-- Under the no-points read specification, over all-series streams, one
`advance` round either ends the table or yields a zero-length page, and the
invariants survive. -/
theorem advanceF_noPoints {n : Nat} {t : Table} {b : Bool} {t2 : Table}
    (hlim : t.readSpec.pointsLimit = -1)
    (hinv : MergedInv t.ms) (hser : allSeriesRem t.ms)
    (h : advanceF n t = some (b, t2)) :
    (b = true → t2.l = 0) ∧ MergedInv t2.ms ∧ allSeriesRem t2.ms ∧
      t2.readSpec = t.readSpec := by
  cases n with
  | zero => exact absurd h (by simp [advanceF])
  | succ n =>
    obtain ⟨hmap, hlen, hsel, hfalse⟩ := mergedMore_spec hinv
    have hser1 : allSeriesRem (t.ms.more).2 := allSeriesRem_of_mapEq hmap hser
    unfold advanceF at h
    dsimp only [] at h
    by_cases hb1 : (t.ms.more).1 = false
    · rw [if_pos hb1] at h
      injection h with h2
      cases h2
      exact ⟨by simp, (hfalse hb1).1, hser1, rfl⟩
    · rw [if_neg hb1] at h
      have hb1' : (t.ms.more).1 = true := by
        revert hb1
        cases (t.ms.more).1 <;> simp
      have hsel' := hsel hb1'
      have hjlt : ((t.ms.more).2.i).toNat < (t.ms.more).2.streams.length := by
        have h1 := hsel'.ipos
        have h2 := hsel'.ilt
        omega
      have hmem := streamAt_mem hjlt
      obtain ⟨hinvN, _, hremEq, _, hsetEq, _, _, _, _⟩ := mergedNext_spec hsel'
      have hframe : readFrameType ((t.ms.more).2.next).1 = FrameType.seriesType := by
        refine hser1 _ hmem (((t.ms.more).2.key, ((t.ms.more).2.next).1)) ?_
        rw [hremEq]
        exact List.mem_cons_self _ _
      obtain ⟨tg2, dt2, hfr⟩ : ∃ tg2 dt2,
          (t.ms.more).2.peek = Frame.series tg2 dt2 := by
        rw [mergedPeek_next]
        cases hx : ((t.ms.more).2.next).1 <;> rw [hx] at hframe <;>
          simp [readFrameType] at hframe
        exact ⟨_, _, rfl⟩
      rw [hfr] at h
      dsimp only [] at h
      by_cases hke : keyEqual ((t.ms.more).2.key) t.key = false
      · rw [if_pos hke] at h
        injection h with h2
        cases h2
        exact ⟨by simp, hsel'.inv, hser1, rfl⟩
      · rw [if_neg hke] at h
        split at h
        · exact absurd h (by simp)
        · next t2' hrt =>
          obtain ⟨tg, rfl⟩ := readTags_shape hrt
          rw [if_pos hlim] at h
          injection h with h2
          cases h2
          refine ⟨fun _ => rfl, hinvN, ?_, rfl⟩
          intro s hs p hp
          have hmem2 : remOf s ∈ ((t.ms.more).2.next).2.streams.map remOf :=
            List.mem_map.mpr ⟨s, hs, rfl⟩
          rw [hsetEq] at hmem2
          rcases List.mem_or_eq_of_mem_set hmem2 with hmem2 | hmem2
          · obtain ⟨s1, hs1, heq⟩ := List.mem_map.mp hmem2
            exact hser1 s1 hs1 p (by rw [heq]; exact hp)
          · refine hser1 _ hmem p ?_
            rw [hremEq]
            exact List.mem_cons_of_mem _ (hmem2 ▸ hp)

/-- The page loop of `table.Do` under the no-points specification: every page
it records is empty. -/
theorem tableLoopF_noPoints : ∀ {n : Nat} {t : Table} {ps : List Nat} {t2 : Table},
    t.readSpec.pointsLimit = -1 → MergedInv t.ms → allSeriesRem t.ms →
    tableLoopF n t = some (ps, t2) → ∀ p ∈ ps, p = 0 := by
  intro n
  induction n with
  | zero =>
    intro t ps t2 _ _ _ h
    exact absurd h (by simp [tableLoopF])
  | succ n ih =>
    intro t ps t2 hlim hinv hser h
    unfold tableLoopF at h
    split at h
    · exact absurd h (by simp)
    · next t1 hadv =>
      injection h with h2
      cases h2
      intro p hp
      exact absurd hp (by simp)
    · next t1 hadv =>
      obtain ⟨hl0, hinv1, hser1, hsp1⟩ := advanceF_noPoints hlim hinv hser hadv
      split at h
      · exact absurd h (by simp)
      · next ps2 t3 hrec =>
        injection h with h2
        cases h2
        intro p hp
        rcases List.mem_cons.mp hp with rfl | hp
        · exact hl0 rfl
        · exact ih (by rw [hsp1]; exact hlim) hinv1 hser1 hrec p hp

/-- C7 (amended): a points limit of -1 sets the wire request's no-points hint,
and a table driven over all-series streams under that specification hands the
consumer only zero-row pages — but, against the claim's words, pages can
exist: a same-key series re-announcement yields a page (see the
counterexample), so "zero pages, callback never invoked" holds only when no
re-announcement of the table's key follows. -/
theorem claim_c7_no_points (readSpec : ReadSpec) (bnds : Bounds) (t : Table)
    (ps : List Nat) (t2 : Table) (req : ReadRequest)
    (hlim : readSpec.pointsLimit = -1)
    (hreq : buildReadRequest readSpec bnds = .ok req)
    (hsp : t.readSpec = readSpec)
    (hinv : MergedInv t.ms)
    (hser : allSeriesRem t.ms)
    (hfirst : t.l = 0)
    (hdo : tableDoPages t = some (ps, t2)) :
    req.hintNoPoints = true ∧ ∀ p ∈ ps, p = 0 := by
  constructor
  · unfold buildReadRequest at hreq
    dsimp only [] at hreq
    split at hreq
    · exact absurd hreq (by simp)
    · injection hreq with h2
      subst h2
      split <;> simp [hlim]
  · have hlim' : t.readSpec.pointsLimit = -1 := by rw [hsp]; exact hlim
    unfold tableDoPages at hdo
    split at hdo
    · injection hdo with h2
      cases h2
      intro p hp
      exact absurd hp (by simp)
    · split at hdo
      · exact absurd hdo (by simp)
      · next ps1 t1 hloop =>
        injection hdo with h2
        cases h2
        intro p hp
        rcases List.mem_cons.mp hp with rfl | hp
        · exact hfirst
        · exact tableLoopF_noPoints hlim' hinv hser hloop p hp

/-- The read specification with the points limit that requests no points. -/
theorem claim_c7_counterexample :
    (handleReadF
        (totalRem (initMerged cexSpecNoPoints cexBounds false
          [[[cexSeriesA, cexSeriesA]]]) + 2)
        cexSpecNoPoints cexBounds
        (initMerged cexSpecNoPoints cexBounds false [[[cexSeriesA, cexSeriesA]]])) =
      some (.ok [{ key := cexNoPointsKey
                   cols := (determineTableColsForSeries
                     [{ key := "t", value := "a" }] .TFloat).1
                   pages := [0]
                   tableErr := none }]) := by
  rfl

/-- C7, witness: the amended theorem at the concrete no-points table. -/
theorem claim_c7_witness :
    (cexSpecNoPoints.pointsLimit = -1 ∧
     buildReadRequest cexSpecNoPoints cexBounds = .ok cexNoPointsReq ∧
     cexNoPointsTable.readSpec = cexSpecNoPoints ∧
     MergedInv cexNoPointsTable.ms ∧
     allSeriesRem cexNoPointsTable.ms ∧
     cexNoPointsTable.l = 0 ∧
     tableDoPages cexNoPointsTable = some (cexNoPointsRun.1, cexNoPointsRun.2)) ∧
    (cexNoPointsReq.hintNoPoints = true ∧ ∀ p ∈ cexNoPointsRun.1, p = 0) := by
  have hinv : MergedInv cexNoPointsTable.ms := by
    refine ⟨?_, fun _ => rfl, ?_, ?_, ?_⟩
    · intro s hs
      have hs' : s = initStream cexSpecNoPoints cexBounds false
          [[cexSeriesA, cexSeriesA]] := by
        rcases List.mem_map.mp hs with ⟨bs, hbs, rfl⟩
        rcases List.mem_singleton.mp hbs with rfl
        rfl
      subst hs'
      refine ⟨by decide, ?_, ?_, by decide⟩
      · intro hf
        exact absurd hf (by decide)
      · intro f hf
        exact Option.noConfusion hf
    · intro ck hck
      exact Option.noConfusion hck
    · intro _
      exact Or.inl (by norm_num [cexNoPointsTable, cexTable, initMerged])
    · intro hneg
      norm_num [cexNoPointsTable, cexTable, initMerged] at hneg
  refine ⟨⟨rfl, by rfl, rfl, hinv, by decide, rfl, by rfl⟩, ?_⟩
  exact claim_c7_no_points cexSpecNoPoints cexBounds cexNoPointsTable
    cexNoPointsRun.1 cexNoPointsRun.2 cexNoPointsReq
    rfl (by rfl) rfl hinv (by decide) rfl (by rfl)

end StoragePB


